import Mathlib

/-!
Verification development for the sql2nosql schema pipeline.

The TypeScript/JavaScript sources are embedded shallowly:

* TS string-literal union types (`SqlColumnType`, `NoSqlFieldType`,
  `EmbeddingStrategy`) are runtime strings, so they are modelled as `String`.
* JS arrays become `List`, JS `Map` (insertion ordered, `set` overwrites the
  value but keeps the original position) becomes an association list with the
  `jsMapSet`/`jsMapGet` operations below.
* JS string helpers (`toLowerCase`, `trim`, `split`, …) are reimplemented on
  `List Char` so that every definition evaluates by kernel reduction.
* Optional properties (`description?`, `suggestedFields?`, …) become `Option`.

Sources embedded:
* `packages/core/src/model.ts` (data model)
* `packages/core/src/nosqlMapping.ts` (`mapToNoSql`, `findPrimaryKey`)
* `packages/core/src/sqlParser.ts` (`parseSqlSchema` and helpers)
* `packages/cli/src/index.ts` (`applyLLMRecommendationsToNoSqlSchema`,
  the `depsMap` / script-generation loop)
-/

/-! ## JavaScript-style string primitives -/

/-- JS `\s` whitespace class (the ASCII members, which are the only ones the
repository's inputs use). -/
def jsIsSpace (c : Char) : Bool :=
  c = ' ' || c = '\t' || c = '\n' || c = '\r' || c = '\x0b' || c = '\x0c'

/-- ASCII lower-casing of one character (JS `toLowerCase` on ASCII). -/
def asciiLower (c : Char) : Char :=
  if 'A' ≤ c && c ≤ 'Z' then Char.ofNat (c.toNat + 32) else c

/-- ASCII upper-casing of one character (JS `toUpperCase` on ASCII). -/
def asciiUpper (c : Char) : Char :=
  if 'a' ≤ c && c ≤ 'z' then Char.ofNat (c.toNat - 32) else c

/-- JS `s.toLowerCase()`. -/
def jsToLower (s : String) : String := ⟨s.data.map asciiLower⟩

/-- JS `s.toUpperCase()`. -/
def jsToUpper (s : String) : String := ⟨s.data.map asciiUpper⟩

/-- JS `s.trim()` on the character list. -/
def jsTrimChars (s : List Char) : List Char :=
  ((s.dropWhile jsIsSpace).reverse.dropWhile jsIsSpace).reverse

/-- JS `s.trim()`. -/
def jsTrim (s : String) : String := ⟨jsTrimChars s.data⟩

/-- JS `s.endsWith(suffix)` (case-sensitive). -/
def jsEndsWith (s suffix : String) : Bool :=
  List.isSuffixOf suffix.data s.data

/-- `pat.test(s)`-style check for a regex of the form `/xyz$/i`:
does `s` end with `suffix` case-insensitively? -/
def endsWithCI (s suffix : String) : Bool :=
  jsEndsWith (jsToLower s) suffix

/-- JS `s.replace(/suf$/i, "")` for a literal lowercase `suf`. -/
def replaceSuffixCI (s : String) (suffix : String) : String :=
  if endsWithCI s suffix then ⟨s.data.take (s.data.length - suffix.data.length)⟩ else s

/-- JS `s.split(sep)` for a single-character separator. -/
def jsSplitChar (s : List Char) (sep : Char) : List (List Char) :=
  go s [] []
where
  go : List Char → List Char → List (List Char) → List (List Char)
    | [], current, acc => acc ++ [current.reverse]
    | c :: rest, current, acc =>
      if c = sep then go rest [] (acc ++ [current.reverse])
      else go rest (c :: current) acc

/-- JS `Array.prototype.join(sep)` for strings. -/
def jsJoin (sep : String) : List String → String
  | [] => ""
  | s :: rest => rest.foldl (fun acc x => acc ++ sep ++ x) s

/-- Does `pat` occur as a contiguous substring of `s`? (JS `/pat/.test(s)` for a
literal pattern.) -/
def containsSub (pat : List Char) : List Char → Bool
  | [] => pat.isEmpty
  | c :: rest => pat.isPrefixOf (c :: rest) || containsSub pat rest

/-! ## JS `Map` as an insertion-ordered association list

`Map.prototype.set` overwrites the value of an existing key in place and
appends new keys at the end; `Map.prototype.get` returns the stored value. -/

/-- JS `m.set(k, v)`. -/
def jsMapSet {α : Type} (m : List (String × α)) (k : String) (v : α) :
    List (String × α) :=
  if m.any (fun p => p.1 == k) then
    m.map (fun p => if p.1 == k then (k, v) else p)
  else
    m ++ [(k, v)]

/-- JS `m.get(k)` (`undefined` becomes `none`). -/
def jsMapGet {α : Type} (m : List (String × α)) (k : String) : Option α :=
  (m.find? (fun p => p.1 == k)).map (·.2)

/-- JS `new Set([...])` iteration order: keep the first occurrence of each
element. -/
def dedupFirst : List String → List String :=
  go []
where
  go (seen : List String) : List String → List String
    | [] => []
    | x :: rest => if x ∈ seen then go seen rest else x :: go (x :: seen) rest

/-- JS `Set.prototype.add`: append if absent. -/
def setAdd (l : List String) (x : String) : List String :=
  if x ∈ l then l else l ++ [x]

/-! ## Data model (`packages/core/src/model.ts`)

The TS string-literal unions are modelled as `String`; the comments list the
literals the source names. -/

/-- `SqlColumn` — `type` ranges over the `SqlColumnType` literals
(`integer, bigint, serial, bigserial, numeric, text, varchar, boolean,
timestamp, timestamptz, date, json, jsonb, uuid, unknown`). -/
structure SqlColumn where
  name : String
  type : String
  nullable : Bool
  isPrimaryKey : Bool
  isUnique : Bool
  hasDefault : Bool
deriving DecidableEq, Repr

/-- `SqlForeignKey` — `cardinality` ranges over
`one-to-one, one-to-many, many-to-many`. -/
structure SqlForeignKey where
  name : String
  fromTable : String
  fromColumn : String
  toTable : String
  toColumn : String
  cardinality : String
deriving DecidableEq, Repr

/-- `SqlTable`. -/
structure SqlTable where
  name : String
  columns : List SqlColumn
  primaryKey : List String
  uniqueConstraints : List (List String)
deriving DecidableEq, Repr

/-- `SqlSchema`. -/
structure SqlSchema where
  tables : List SqlTable
  foreignKeys : List SqlForeignKey
deriving DecidableEq, Repr

/-- `NoSqlField` — `type` ranges over the `NoSqlFieldType` literals
(`string, number, boolean, date, object, array, reference, unknown`).

The declared TS interface has no `fields` property, but
`applyLLMRecommendationsToNoSqlSchema` and the script generator read and write
a `fields: NoSqlField[]` property on field objects (via `as any`), so the
runtime shape carries an optional nested field list. -/
inductive NoSqlField : Type where
  | mk (name : String) (type : String) (optional : Bool)
       (description : Option String) (refCollection : Option String)
       (fields : Option (List NoSqlField)) : NoSqlField

/-- Field name accessor. -/
def NoSqlField.name : NoSqlField → String
  | .mk n _ _ _ _ _ => n

/-- Field type accessor. -/
def NoSqlField.type : NoSqlField → String
  | .mk _ t _ _ _ _ => t

/-- Optional flag accessor. -/
def NoSqlField.optional : NoSqlField → Bool
  | .mk _ _ o _ _ _ => o

/-- Description accessor. -/
def NoSqlField.description : NoSqlField → Option String
  | .mk _ _ _ d _ _ => d

/-- Reference-target accessor. -/
def NoSqlField.refCollection : NoSqlField → Option String
  | .mk _ _ _ _ r _ => r

/-- Nested field list accessor. -/
def NoSqlField.fields : NoSqlField → Option (List NoSqlField)
  | .mk _ _ _ _ _ fs => fs

/-- Replace the nested field list (JS `field.fields = …`). -/
def NoSqlField.withFields : NoSqlField → Option (List NoSqlField) → NoSqlField
  | .mk n t o d r _, fs => .mk n t o d r fs

/-- `NoSqlCollection`. -/
structure NoSqlCollection where
  name : String
  fields : List NoSqlField
  description : Option String

/-- `NoSqlSchema`. -/
structure NoSqlSchema where
  collections : List NoSqlCollection

/-- `EmbeddingRecommendation` — `strategy` ranges over the
`EmbeddingStrategy` literals (`full`, `reference`, `hybrid` and the
partial-embedding literal). `confidence` is an unused score in `[0,1]`,
modelled as a rational. -/
structure EmbeddingRecommendation where
  collection : String
  field : String
  strategy : String
  reason : String
  suggestedFields : Option (List String)
  confidence : Option ℚ

/-- `LLMRecommendations` (`insights` and `warnings` are never read by the
embedded code paths; insights are kept as opaque report strings). -/
structure LLMRecommendations where
  embeddings : List EmbeddingRecommendation
  insights : List String
  warnings : Option (List String)

/-! ## Document Schema Mapper (`packages/core/src/nosqlMapping.ts`) -/

/-- `mapColumnTypeToNoSql` — the fixed, total column-type table. -/
def mapColumnTypeToNoSql (t : String) : String :=
  match t with
  | "integer" | "bigint" | "serial" | "bigserial" | "numeric" => "number"
  | "boolean" => "boolean"
  | "timestamp" | "timestamptz" | "date" => "date"
  | "json" | "jsonb" => "object"
  | "text" | "varchar" | "uuid" => "string"
  | _ => "unknown"

/-- `findPrimaryKey` returns `string | string[]`; modelled as a sum
(`inl` = single string, `inr` = array). -/
def findPrimaryKey (schema : SqlSchema) (tableName : String) :
    String ⊕ List String :=
  match schema.tables.find? (fun t => t.name == tableName) with
  | none => Sum.inl "id"
  | some table =>
    if table.primaryKey.length = 0 then Sum.inl "id"
    else if table.primaryKey.length = 1 then
      Sum.inl (table.primaryKey.headD "")
    else Sum.inr table.primaryKey

/-- JS template-literal stringification of `string | string[]`
(an array interpolates as its comma-joined elements). -/
def jsInterp : String ⊕ List String → String
  | Sum.inl s => s
  | Sum.inr l => jsJoin "," l

/-- The `fkByTableAndColumn` map of `mapToNoSql`: keyed by
`fromTable + "." + fromColumn`, value `toTable`; later entries overwrite
earlier ones. -/
def fkByTableAndColumn (fks : List SqlForeignKey) : List (String × String) :=
  fks.foldl (fun m fk => jsMapSet m (fk.fromTable ++ "." ++ fk.fromColumn) fk.toTable) []

/-- The field built by `mapToNoSql` for one column of one table. -/
def mapColumnToField (sqlSchema : SqlSchema) (fkMap : List (String × String))
    (tableName : String) (col : SqlColumn) : NoSqlField :=
  match jsMapGet fkMap (tableName ++ "." ++ col.name) with
  | some refCollection =>
    -- the source guard `if (refCollection)` is a JS truthiness test, so the
    -- empty string falls through to the type-mapped field exactly like a
    -- missing entry
    if refCollection = "" then
      .mk col.name (mapColumnTypeToNoSql col.type) col.nullable none none none
    else
      .mk col.name "reference" col.nullable
        (some ("Reference to " ++ refCollection ++ "." ++
          jsInterp (findPrimaryKey sqlSchema refCollection)))
        (some refCollection) none
  | none =>
    .mk col.name (mapColumnTypeToNoSql col.type) col.nullable none none none

/-- `mapToNoSql` — the Document Schema Mapper. -/
def mapToNoSql (sqlSchema : SqlSchema) : NoSqlSchema :=
  let fkMap := fkByTableAndColumn sqlSchema.foreignKeys
  { collections :=
      sqlSchema.tables.map (fun table =>
        { name := table.name
          fields := table.columns.map (mapColumnToField sqlSchema fkMap table.name)
          description := some ("Collection derived from table " ++ table.name) }) }

/-! ## Advisory Augmentation Merger
(`applyLLMRecommendationsToNoSqlSchema`, `packages/cli/src/index.ts`)

The source mutates copies it makes up front (`{...collection, fields:
collection.fields.map(f => ({...f}))}`); under value semantics the copies are
the values themselves, and each mutation step becomes a functional update of
the working `Map`.  A separate heap-instrumented embedding below
(`applyLLMHeap`) keeps the aliasing explicit for the frame property. -/

/-- The suffix stripping `rec.field.replace(/_id$/i, "").replace(/id$/i, "")`
(the second nested-name regex `/Id$/i` is the same case-insensitive test). -/
def stripIdSuffix (f : String) : String :=
  replaceSuffixCI (replaceSuffixCI f "_id") "id"

/-- Step 2 of the table resolution: infer a table from the field name by
suffix stripping and case-insensitive singular/plural matching. -/
def inferTableByName (sqlSchema : SqlSchema) (field : String) : Option SqlTable :=
  let baseName := stripIdSuffix field
  if baseName = "" then none
  else
    let lowerBase := jsToLower baseName
    match sqlSchema.tables.find? (fun t => jsToLower t.name == lowerBase) with
    | some t => some t
    | none =>
      match sqlSchema.tables.find? (fun t => jsToLower t.name == lowerBase ++ "s") with
      | some t => some t
      | none => sqlSchema.tables.find? (fun t => jsToLower t.name == lowerBase ++ "es")

/-- Resolve the referenced table for one recommendation: prefer a foreign key
matching `(collection, field)`; if no foreign key matches (or its target table
is absent) fall back to name inference. -/
def resolveReferencedTable (sqlSchema : SqlSchema) (r : EmbeddingRecommendation) :
    Option SqlTable :=
  let fk := sqlSchema.foreignKeys.find?
    (fun candidate => candidate.fromTable == r.collection && candidate.fromColumn == r.field)
  match fk.bind (fun fk => sqlSchema.tables.find? (fun t => t.name == fk.toTable)) with
  | some t => some t
  | none => inferTableByName sqlSchema r.field

/-- The nested object field name derived from the recommendation's field. -/
def nestedNameOf (r : EmbeddingRecommendation) : String :=
  let baseName := stripIdSuffix r.field
  if baseName = "" then r.field ++ "_obj" else baseName

/-- The id-like columns of the resolved table (`/id$/i.test(name)`). -/
def idLikeColumns (t : SqlTable) : List String :=
  (t.columns.map (·.name)).filter (fun n => endsWithCI n "id")

/-- The starting field-name list: LLM-suggested names if present and
non-empty, else all columns of the resolved table. -/
def baseFieldNames (r : EmbeddingRecommendation) (t : SqlTable) : List String :=
  match r.suggestedFields with
  | some l => if l.length > 0 then l else t.columns.map (·.name)
  | none => t.columns.map (·.name)

/-- `allFieldNames = Array.from(new Set([...baseFieldNames, ...idLikeColumns]))`. -/
def allFieldNames (r : EmbeddingRecommendation) (t : SqlTable) : List String :=
  dedupFirst (baseFieldNames r t ++ idLikeColumns t)

/-- The nested fields built for one recommendation once its table resolved:
each name is typed by a case-insensitive column lookup (unmatched names map to
`unknown`) and is always optional. -/
def nestedFieldsFor (r : EmbeddingRecommendation) (t : SqlTable) : List NoSqlField :=
  (allFieldNames r t).map (fun fieldName =>
    let col := t.columns.find? (fun c => jsToLower c.name == jsToLower fieldName)
    NoSqlField.mk fieldName
      (match col with
       | some c => mapColumnTypeToNoSql c.type
       | none => "unknown")
      true none none none)

/-- `nestedFields` as an `Option`: present exactly when the table resolved. -/
def nestedFieldsOpt (sqlSchema : SqlSchema) (r : EmbeddingRecommendation) :
    Option (List NoSqlField) :=
  (resolveReferencedTable sqlSchema r).map (nestedFieldsFor r)

/-- The merge loop over `nestedFields`: starting from the existing nested
fields (`existing.fields ?? []`) and the set of their names, push each new
field whose name is not yet present. -/
def mergeNestedAux (seen : List String) (acc : List NoSqlField) :
    List NoSqlField → List NoSqlField
  | [] => acc
  | nf :: rest =>
    if nf.name ∈ seen then mergeNestedAux seen acc rest
    else mergeNestedAux (nf.name :: seen) (acc ++ [nf]) rest

/-- Replace the first field named `n` (the one `find?` returns and the source
mutates in place). -/
def replaceFirstField (n : String) (f' : NoSqlField) :
    List NoSqlField → List NoSqlField
  | [] => []
  | f :: rest =>
    if f.name == n then f' :: rest else f :: replaceFirstField n f' rest

/-- The field appended when the collection has no field with the computed
nested name: a new optional `object` field, carrying the nested fields only
when they exist and are non-empty. -/
def pushedField (sqlSchema : SqlSchema) (r : EmbeddingRecommendation) : NoSqlField :=
  NoSqlField.mk (nestedNameOf r) "object" true none none
    (match nestedFieldsOpt sqlSchema r with
     | some nfs => if nfs.length > 0 then some nfs else none
     | none => none)

/-- One iteration of the `for (const rec of llm.embeddings)` loop, as a
transformation of the working collection map. -/
def applyRec (sqlSchema : SqlSchema) (m : List (String × NoSqlCollection))
    (r : EmbeddingRecommendation) : List (String × NoSqlCollection) :=
  match jsMapGet m r.collection with
  | none => m
  | some collection =>
    let nestedName := nestedNameOf r
    match collection.fields.find? (fun f => f.name == nestedName) with
    | some existing =>
      match nestedFieldsOpt sqlSchema r with
      | some nfs =>
        if existing.type == "object" && decide (nfs.length > 0) then
          let existingFields := existing.fields.getD []
          let mergedFields :=
            mergeNestedAux (existingFields.map (·.name)) existingFields nfs
          let existing' := existing.withFields (some mergedFields)
          jsMapSet m r.collection
            { collection with
                fields := replaceFirstField nestedName existing' collection.fields }
        else m
      | none => m
    | none =>
      jsMapSet m r.collection
        { collection with fields := collection.fields ++ [pushedField sqlSchema r] }

/-- The initial working map: every baseline collection keyed by name
(`Map.set` keeps the first position and the last value on duplicate names);
the spread copies are identities under value semantics. -/
def initCollectionsMap (baseSchema : NoSqlSchema) :
    List (String × NoSqlCollection) :=
  baseSchema.collections.foldl (fun m c => jsMapSet m c.name c) []

/-- `applyLLMRecommendationsToNoSqlSchema` — the Advisory Augmentation
Merger. -/
def applyLLMRecommendationsToNoSqlSchema (baseSchema : NoSqlSchema)
    (sqlSchema : SqlSchema) (llm : Option LLMRecommendations) : NoSqlSchema :=
  match llm with
  | none => baseSchema
  | some l =>
    if l.embeddings.length = 0 then baseSchema
    else
      { collections :=
          (l.embeddings.foldl (applyRec sqlSchema) (initCollectionsMap baseSchema)).map
            (·.2) }

/-! ## Collection Dependency Resolver
(the `depsMap` / script loop, `packages/cli/src/index.ts`) -/

/-- The candidate collection names tried for one object-typed field
(`new Set([name, name + "s", name.slice(0, -1) if name ends in "s"])`). -/
def candidateNames (fieldName : String) : List String :=
  dedupFirst ([fieldName, fieldName ++ "s"] ++
    (if jsEndsWith fieldName "s" then [⟨fieldName.data.dropLast⟩] else []))

/-- Add every candidate that names a known, different collection to the
dependency set. -/
def addFieldDeps (allNames : List String) (cname : String)
    (deps : List String) (fieldName : String) : List String :=
  (candidateNames fieldName).foldl
    (fun deps cand =>
      if cand ∈ allNames ∧ cand ≠ cname then setAdd deps cand else deps)
    deps

mutual
/-- `visitFields` on a single field: object-typed fields contribute their
name candidates and are recursed into. -/
def visitField (allNames : List String) (cname : String)
    (deps : List String) : NoSqlField → List String
  | .mk n t _ _ _ fs =>
    if t == "object" then
      let deps1 := addFieldDeps allNames cname deps n
      match fs with
      | some nfs => visitFieldList allNames cname deps1 nfs
      | none => deps1
    else deps

/-- `visitFields` on a field list. -/
def visitFieldList (allNames : List String) (cname : String)
    (deps : List String) : List NoSqlField → List String
  | [] => deps
  | f :: rest => visitFieldList allNames cname (visitField allNames cname deps f) rest
end

/-- The dependency set computed for one collection. -/
def collectionDeps (schema : NoSqlSchema) (c : NoSqlCollection) : List String :=
  visitFieldList (schema.collections.map (·.name)) c.name [] c.fields

/-- The `depsMap` of the script-generation phase, in collection order. -/
def depsMap (schema : NoSqlSchema) : List (String × List String) :=
  schema.collections.map (fun c => (c.name, collectionDeps schema c))

/-- The per-collection migration-script plans actually emitted: one script per
collection, in original schema order, each parameterized by its dependency
(preload) set.  No topological sort and no cycle check occur anywhere on this
path. -/
def migrationScriptPlans (schema : NoSqlSchema) : List (String × List String) :=
  schema.collections.map (fun c => (c.name, collectionDeps schema c))

/-- The order in which per-collection scripts are generated and handed to the
runner generator: the original schema order. -/
def scriptGenerationOrder (schema : NoSqlSchema) : List String :=
  schema.collections.map (·.name)

/-! ## DDL parser (`packages/core/src/sqlParser.ts`)

The two regular expressions of the source
(`^CREATE\s+TABLE\s+("?[\w.]+"?)\s*\(([\s\S]*)\)$` with `i`, and
`REFERENCES\s+("?[\w.]+"?)\s*\(([^)]+)\)` with `i`) are realized as explicit
character-list matchers with the same greedy semantics; everything else is a
direct translation. -/

/-- JS `\w`: ASCII letters, digits and underscore. -/
def jsIsWordChar (c : Char) : Bool :=
  ('a' ≤ c && c ≤ 'z') || ('A' ≤ c && c ≤ 'Z') || ('0' ≤ c && c ≤ '9') || c = '_'

/-- Case-insensitive literal keyword match: returns the remainder. -/
def dropKeywordCI (kw : List Char) (s : List Char) : Option (List Char) :=
  match kw, s with
  | [], rest => some rest
  | _ :: _, [] => none
  | k :: kw', c :: s' => if asciiLower c = asciiLower k then dropKeywordCI kw' s' else none

/-- Match `\s+` (at least one whitespace character), returning the remainder. -/
def dropWs1 (s : List Char) : Option (List Char) :=
  match s with
  | c :: rest => if jsIsSpace c then some (rest.dropWhile jsIsSpace) else none
  | [] => none

/-- Match the name part `"?[\w.]+"?`, returning the captured text (with its
quotes, as the regex group does) and the remainder. -/
def matchNamePart (s : List Char) : Option (List Char × List Char) :=
  let afterQuote := match s with
    | '"' :: rest => (['"'], rest)
    | _ => ([], s)
  let body := afterQuote.2.takeWhile (fun c => jsIsWordChar c || c = '.')
  if body.isEmpty then none
  else
    let rest := afterQuote.2.drop body.length
    match rest with
    | '"' :: rest' => some (afterQuote.1 ++ body ++ ['"'], rest')
    | _ => some (afterQuote.1 ++ body, rest)

/-- The anchored `CREATE TABLE` statement matcher: on success returns the
captured name text and the body between the first `(` after the name and the
final `)` (which the `$` anchor forces to be the last character). -/
def matchCreateTable (s : List Char) : Option (List Char × List Char) := do
  let s ← dropKeywordCI "create".data s
  let s ← dropWs1 s
  let s ← dropKeywordCI "table".data s
  let s ← dropWs1 s
  let (nameText, s) ← matchNamePart s
  let s := s.dropWhile jsIsSpace
  match s with
  | '(' :: rest =>
    match rest.getLast? with
    | some ')' => some (nameText, rest.dropLast)
    | _ => none
  | _ => none

/-- `stripQuotes`. -/
def stripQuotes (name : String) : String :=
  let trimmed := jsTrimChars name.data
  -- `startsWith('"') && endsWith('"')` test both ends independently, so the
  -- single character `"` satisfies both and `slice(1, -1)` yields `""`
  if trimmed.head? = some '"' ∧ trimmed.getLast? = some '"' then
    ⟨(trimmed.drop 1).dropLast⟩
  else ⟨trimmed⟩

/-- `splitColumns`: split the body on top-level commas, tracking parenthesis
depth (a plain signed counter, as in the source). -/
def splitColumnsAux : List Char → Int → List Char → List (List Char) →
    List (List Char)
  | [], _, current, parts =>
    if jsTrimChars current ≠ [] then parts ++ [current] else parts
  | ch :: rest, depth, current, parts =>
    let depth := if ch = '(' then depth + 1 else depth
    let depth := if ch = ')' then depth - 1 else depth
    if ch = ',' ∧ depth = 0 then splitColumnsAux rest depth [] (parts ++ [current])
    else splitColumnsAux rest depth (current ++ [ch]) parts

/-- `splitColumns`. -/
def splitColumns (body : List Char) : List (List Char) :=
  splitColumnsAux body 0 [] []

/-- Drop a `-- …` line comment: keep the text before the first `--`. -/
def stripLineComment : List Char → List Char
  | [] => []
  | '-' :: '-' :: _ => []
  | c :: rest => c :: stripLineComment rest

/-- The `--.*$` replacement with the `g` and `m` flags: remove the trailing
comment of every line. -/
def removeLineComments (s : List Char) : List Char :=
  match (jsSplitChar s '\n').map stripLineComment with
  | [] => []
  | l :: ls => ls.foldl (fun acc line => acc ++ '\n' :: line) l

/-- `.replace(/\s+/g, " ")`: collapse every whitespace run to one space. -/
def collapseWsAux : Bool → List Char → List Char
  | _, [] => []
  | prevSpace, c :: rest =>
    if jsIsSpace c then
      if prevSpace then collapseWsAux true rest
      else ' ' :: collapseWsAux true rest
    else c :: collapseWsAux false rest

/-- `normalizeWhitespace`. -/
def normalizeWhitespace (input : List Char) : List Char :=
  jsTrimChars (collapseWsAux false (removeLineComments input))

/-- The first match of `\(([^)]+)\)`: scan for a `(` followed by at least one
non-`)` character and a closing `)`. -/
def firstParenGroup : List Char → Option (List Char)
  | [] => none
  | '(' :: rest =>
    let inner := rest.takeWhile (fun c => c ≠ ')')
    if inner.length ≠ 0 ∧ inner.length < rest.length then some inner
    else firstParenGroup rest
  | _ :: rest => firstParenGroup rest

/-- `extractColumnList`. -/
def extractColumnList (line : List Char) : List String :=
  match firstParenGroup line with
  | none => []
  | some inner =>
    (((jsSplitChar inner ',').map (fun c => stripQuotes ⟨c⟩)).map jsTrim).filter
      (fun s => s ≠ "")

/-- `mapType`: lower-case the token, strip from the first `(` on, and look it
up in `TYPE_MAP` (the switch below is that record), defaulting to
`unknown`. -/
def mapType (token : String) : String :=
  let base : String := ⟨(token.data.map asciiLower).takeWhile (fun c => c ≠ '(')⟩
  match base with
  | "integer" => "integer"
  | "int" => "integer"
  | "bigint" => "bigint"
  | "serial" => "serial"
  | "bigserial" => "bigserial"
  | "numeric" => "numeric"
  | "decimal" => "numeric"
  | "text" => "text"
  | "varchar" => "varchar"
  | "boolean" => "boolean"
  | "bool" => "boolean"
  | "timestamp" => "timestamp"
  | "timestamptz" => "timestamptz"
  | "date" => "date"
  | "json" => "json"
  | "jsonb" => "jsonb"
  | "uuid" => "uuid"
  | _ => "unknown"

/-- `parseColumnLine`. -/
def parseColumnLine (line : List Char) : Option SqlColumn :=
  let tokens := ((jsSplitChar line ' ').map (fun c => (⟨c⟩ : String))).filter
    (fun s => s ≠ "")
  match tokens with
  | name0 :: typeToken :: restTokens =>
    let restUpper := (jsToUpper (jsJoin " " restTokens)).data
    some
      { name := stripQuotes name0
        type := mapType typeToken
        nullable := !containsSub "NOT NULL".data restUpper
        isPrimaryKey := containsSub "PRIMARY KEY".data restUpper
        isUnique := containsSub "UNIQUE".data restUpper
        hasDefault := containsSub "DEFAULT ".data restUpper }
  | _ => none

/-- Try the `REFERENCES\s+("?[\w.]+"?)\s*\(([^)]+)\)` pattern anchored at the
head of `s`. -/
def matchReferencesAt (s : List Char) : Option (List Char × List Char) := do
  let s ← dropKeywordCI "references".data s
  let s ← dropWs1 s
  let (nameText, s) ← matchNamePart s
  let s := s.dropWhile jsIsSpace
  match s with
  | '(' :: rest =>
    let inner := rest.takeWhile (fun c => c ≠ ')')
    if inner.length ≠ 0 ∧ inner.length < rest.length then some (nameText, inner)
    else none
  | _ => none

/-- The first match of the `REFERENCES` pattern anywhere in the line. -/
def findReferences : List Char → Option (List Char × List Char)
  | [] => none
  | c :: rest =>
    match matchReferencesAt (c :: rest) with
    | some r => some r
    | none => findReferences rest

/-- `parseTableLevelForeignKey`. -/
def parseTableLevelForeignKey (line : List Char) (tableName : String) :
    Option SqlForeignKey :=
  let fkCols := extractColumnList line
  match findReferences line with
  | none => none
  | some (nameText, innerCols) =>
    if fkCols.isEmpty then none
    else
      let toTable := stripQuotes ⟨nameText⟩
      let toCols :=
        (((jsSplitChar innerCols ',').map (fun c => stripQuotes ⟨c⟩)).map jsTrim).filter
          (fun s => s ≠ "")
      if fkCols.length ≠ 1 ∨ toCols.length ≠ 1 then none
      else
        some
          { name := tableName ++ "_" ++ fkCols.headD "" ++ "_fk"
            fromTable := tableName
            fromColumn := fkCols.headD ""
            toTable := toTable
            toColumn := toCols.headD ""
            cardinality := "one-to-many" }

/-- The per-line step of the statement-body loop: fold state is
`(columns, primaryKey, uniqueConstraints, foreignKeys)`. -/
def parseBodyLine (tableName : String)
    (st : List SqlColumn × List String × List (List String) × List SqlForeignKey)
    (rawLine : List Char) :
    List SqlColumn × List String × List (List String) × List SqlForeignKey :=
  let (columns, primaryKey, uniques, fks) := st
  let line := normalizeWhitespace rawLine
  if line = [] then st
  else
    let upper := line.map asciiUpper
    if "PRIMARY KEY".data.isPrefixOf upper then
      (columns, primaryKey ++ extractColumnList line, uniques, fks)
    else if "UNIQUE".data.isPrefixOf upper then
      (columns, primaryKey, uniques ++ [extractColumnList line], fks)
    else if "FOREIGN KEY".data.isPrefixOf upper then
      match parseTableLevelForeignKey line tableName with
      | some fk => (columns, primaryKey, uniques, fks ++ [fk])
      | none => (columns, primaryKey, uniques, fks)
    else
      match parseColumnLine line with
      | some col => (columns ++ [col], primaryKey, uniques, fks)
      | none => (columns, primaryKey, uniques, fks)

/-- Process one `;`-separated statement (foreign keys accumulate globally, as
in the source). -/
def parseStatement (acc : List SqlTable × List SqlForeignKey) (stmt : String) :
    List SqlTable × List SqlForeignKey :=
  match matchCreateTable (jsTrimChars stmt.data) with
  | none => acc
  | some (nameText, body) =>
    let tableName := stripQuotes ⟨nameText⟩
    let lines := splitColumns (jsTrimChars body)
    let (columns, primaryKey, uniques, fks) :=
      lines.foldl (parseBodyLine tableName) ([], [], [], [])
    (acc.1 ++ [{ name := tableName, columns := columns, primaryKey := primaryKey,
                 uniqueConstraints := uniques }],
     acc.2 ++ fks)

/-- `parseSqlSchema` — the deterministic DDL parser.  It is a total function:
there is no rejection path, every input yields a `SqlSchema` value. -/
def parseSqlSchema (sql : String) : SqlSchema :=
  let cleaned := jsTrim sql
  if cleaned = "" then { tables := [], foreignKeys := [] }
  else
    let statements :=
      (((jsSplitChar cleaned.data ';').map (fun s => (⟨jsTrimChars s⟩ : String))).filter
        (fun s => s ≠ ""))
    let (tables, fks) := statements.foldl parseStatement ([], [])
    { tables := tables, foreignKeys := fks }

/-- The spec's construction invariant, as a checkable predicate.
Modelled from the spec: "every name in `primaryKey` and in each unique group
must reference an existing column". -/
def specKeyColumnsInvariant (s : SqlSchema) : Bool :=
  s.tables.all (fun t =>
    t.primaryKey.all (fun n => t.columns.any (fun c => c.name == n)) &&
    t.uniqueConstraints.all (fun g => g.all (fun n => t.columns.any (fun c => c.name == n))))

/-! ## Heap-instrumented Merger (for the frame property)

To state that `applyLLMRecommendationsToNoSqlSchema` does not mutate its
baseline, the aliasing of the source must be explicit: the `{...f}` shallow
copies share the nested `fields` arrays with the baseline.  Field arrays are
therefore heap cells (`Heap` below, indexed by allocation order); a field
object holds an optional cell reference; collections hold the reference of
their (copied) fields array.  The function allocates new cells (`allocCell`)
for the copies, for every `mergedFields` array and for every computed
`nestedFields` array, and writes (`writeCell`) only to the copied cells, as
the source does. -/

/-- A field object under explicit aliasing: like `NoSqlField`, but the nested
field array is a heap reference. -/
structure HField where
  name : String
  type : String
  optional : Bool
  description : Option String
  refCollection : Option String
  fieldsRef : Option Nat
deriving DecidableEq, Repr

/-- A collection object under explicit aliasing: its `fields` array is a heap
reference. -/
structure HCollection where
  name : String
  fieldsRef : Nat
  description : Option String
deriving DecidableEq, Repr

/-- The heap of field arrays, indexed by allocation order. -/
abbrev Heap := List (List HField)

/-- The baseline Document Schema under explicit aliasing. -/
structure HSchema where
  collections : List HCollection
deriving DecidableEq, Repr

/-- Allocate a fresh array cell. -/
def allocCell (h : Heap) (cell : List HField) : Heap × Nat :=
  (h ++ [cell], h.length)

/-- Read an array cell (out-of-range reads never occur on the embedded
paths; they default to the empty array). -/
def readCell (h : Heap) (r : Nat) : List HField :=
  h.getD r []

/-- Overwrite an array cell in place. -/
def writeCell (h : Heap) (r : Nat) (cell : List HField) : Heap :=
  h.set r cell

/-- The nested fields computed for a resolved table, as heap-level field
objects (their own `fields` property is absent). -/
def hNestedFieldsFor (r : EmbeddingRecommendation) (t : SqlTable) : List HField :=
  (allFieldNames r t).map (fun fieldName =>
    let col := t.columns.find? (fun c => jsToLower c.name == jsToLower fieldName)
    { name := fieldName
      type := match col with
              | some c => mapColumnTypeToNoSql c.type
              | none => "unknown"
      optional := true
      description := none
      refCollection := none
      fieldsRef := none })

/-- The merge loop at heap level (the new objects carry no nested array). -/
def hMergeAux (seen : List String) (acc : List HField) :
    List HField → List HField
  | [] => acc
  | nf :: rest =>
    if nf.name ∈ seen then hMergeAux seen acc rest
    else hMergeAux (nf.name :: seen) (acc ++ [nf]) rest

/-- Replace the first field named `n` in an array cell. -/
def hReplaceFirst (n : String) (f' : HField) : List HField → List HField
  | [] => []
  | f :: rest =>
    if f.name == n then f' :: rest else f :: hReplaceFirst n f' rest

/-- One recommendation step at heap level.  The working map holds the copied
collection objects; the merge branch mutates the copied field object (fresh
`mergedFields` cell) and the copied fields array, the push branch appends to
the copied fields array; the baseline cells are never written. -/
def applyRecH (sqlSchema : SqlSchema) :
    Heap × List (String × HCollection) → EmbeddingRecommendation →
    Heap × List (String × HCollection)
  | (h, m), r =>
  match jsMapGet m r.collection with
  | none => (h, m)
  | some collection =>
    let fields := readCell h collection.fieldsRef
    let referencedTable := resolveReferencedTable sqlSchema r
    let nestedName := nestedNameOf r
    -- the `nestedFields` array is allocated when computed, before the
    -- existing-field dispatch, exactly as in the source
    let (h, nested) :=
      match referencedTable with
      | some t =>
        let (h', ref) := allocCell h (hNestedFieldsFor r t)
        (h', some (ref, hNestedFieldsFor r t))
      | none => (h, none)
    match fields.find? (fun f => f.name == nestedName) with
    | some existing =>
      match nested with
      | some (_, nfs) =>
        if existing.type == "object" && decide (nfs.length > 0) then
          let existingFields :=
            match existing.fieldsRef with
            | some ref => readCell h ref
            | none => []
          let merged := hMergeAux (existingFields.map (·.name)) existingFields nfs
          let (h, mergedRef) := allocCell h merged
          let existing' := { existing with fieldsRef := some mergedRef }
          (writeCell h collection.fieldsRef (hReplaceFirst nestedName existing' fields), m)
        else (h, m)
      | none => (h, m)
    | none =>
      let newField : HField :=
        { name := nestedName, type := "object", optional := true,
          description := none, refCollection := none,
          fieldsRef :=
            match nested with
            | some (ref, nfs) => if nfs.length > 0 then some ref else none
            | none => none }
      (writeCell h collection.fieldsRef (fields ++ [newField]), m)

/-- The copy phase at heap level: each collection's fields array is read and
a fresh cell is allocated for the copy; the copied field objects share their
`fieldsRef` with the baseline fields (the `{...f}` shallow copy). -/
def copyCollectionsH (h : Heap) (baseSchema : HSchema) :
    Heap × List (String × HCollection) :=
  baseSchema.collections.foldl
    (fun (st : Heap × List (String × HCollection)) c =>
      let (h, m) := st
      let (h', ref) := allocCell h (readCell h c.fieldsRef)
      (h', jsMapSet m c.name { c with fieldsRef := ref }))
    (h, [])

/-- `applyLLMRecommendationsToNoSqlSchema` at heap level: returns the final
heap and the augmented schema. -/
def applyLLMHeap (h : Heap) (baseSchema : HSchema) (sqlSchema : SqlSchema)
    (llm : Option LLMRecommendations) : Heap × HSchema :=
  match llm with
  | none => (h, baseSchema)
  | some l =>
    if l.embeddings.length = 0 then (h, baseSchema)
    else
      let (h1, m1) := copyCollectionsH h baseSchema
      let (h2, m2) := l.embeddings.foldl (applyRecH sqlSchema) (h1, m1)
      (h2, { collections := m2.map (·.2) })

/-! ## Nested duplicate-freedom (claim C7's shape predicate) -/

/-- Are the field names of a list pairwise distinct? -/
def nodupNames : List NoSqlField → Bool
  | [] => true
  | f :: rest => !(rest.any (fun g => g.name == f.name)) && nodupNames rest

mutual
/-- No object field anywhere inside this field has duplicate nested field
names. -/
def fieldDupFree : NoSqlField → Bool
  | .mk _ _ _ _ _ none => true
  | .mk _ _ _ _ _ (some l) => nodupNames l && fieldsDupFree l

/-- `fieldDupFree` over a list. -/
def fieldsDupFree : List NoSqlField → Bool
  | [] => true
  | f :: rest => fieldDupFree f && fieldsDupFree rest
end

/-- No object field of any collection of the schema has duplicate nested
field names, at any depth. -/
def schemaNestedDupFree (s : NoSqlSchema) : Bool :=
  s.collections.all (fun c => fieldsDupFree c.fields)

/-! ## Concrete demonstration inputs -/

/-- The `artist` table of the demonstration schemas. -/
def demoArtistTable : SqlTable :=
  { name := "artist"
    columns :=
      [⟨"artistid", "integer", false, true, false, false⟩,
       ⟨"name", "varchar", true, false, false, false⟩]
    primaryKey := ["artistid"]
    uniqueConstraints := [] }

/-- A one-table relational schema (`artist`) with no foreign keys, so any
recommendation against it is an implicit relationship. -/
def demoSqlArtist : SqlSchema :=
  { tables := [demoArtistTable]
    foreignKeys := [] }

/-- The baseline `album` collection of the demonstration schemas. -/
def demoAlbumCollection : NoSqlCollection :=
  { name := "album"
    fields :=
      [.mk "albumid" "number" false none none none,
       .mk "artistid" "number" true none none none]
    description := none }

/-- A baseline Document Schema with a single `album` collection. -/
def demoBaseAlbum : NoSqlSchema :=
  { collections := [demoAlbumCollection] }

/-- A `full`-strategy recommendation on an implicit relationship (no foreign
key matches `album.artistid` in `demoSqlArtist`). -/
def recImplicitFull : EmbeddingRecommendation :=
  { collection := "album", field := "artistid", strategy := "full",
    reason := "frequently read together", suggestedFields := none,
    confidence := some (9/10) }

/-- A recommendation whose referenced table is unresolvable: no foreign key
matches `album.xyzid` and no table is named `xyz`/`xyzs`/`xyzes`. -/
def recUnresolvable : EmbeddingRecommendation :=
  { collection := "album", field := "xyzid", strategy := "reference",
    reason := "guess", suggestedFields := none, confidence := none }

/-- Two collections that embed each other: a cyclic dependency graph. -/
def cyclicSchema : NoSqlSchema :=
  { collections :=
      [{ name := "a", fields := [.mk "b" "object" true none none none],
         description := none },
       { name := "b", fields := [.mk "a" "object" true none none none],
         description := none }] }

/-- An acyclic Document Schema where the first collection (`album`) embeds
the second (`artist`). -/
def acyclicSchema : NoSqlSchema :=
  { collections :=
      [{ name := "album", fields := [.mk "artist" "object" true none none none],
         description := none },
       { name := "artist", fields := [.mk "name" "string" true none none none],
         description := none }] }

/-- A malformed DDL input: the `PRIMARY KEY` clause names column `b`, which
does not exist among the table's columns. -/
def danglingPkDdl : String := "CREATE TABLE t (a integer, PRIMARY KEY (b))"

/-- A two-table relational schema with a foreign key, exercising the mapper's
reference-field path. -/
def demoSqlFk : SqlSchema :=
  { tables :=
      [{ name := "artist"
         columns := [⟨"artistid", "integer", false, true, false, false⟩]
         primaryKey := ["artistid"]
         uniqueConstraints := [] },
       { name := "album"
         columns :=
           [⟨"albumid", "integer", false, true, false, false⟩,
            ⟨"artistid", "integer", true, false, false, false⟩]
         primaryKey := ["albumid"]
         uniqueConstraints := [] }]
    foreignKeys :=
      [⟨"album_artistid_fk", "album", "artistid", "artist", "artistid",
        "one-to-many"⟩] }

/-- A relational schema in which two distinct foreign keys share the same
concatenated `fromTable + "." + fromColumn` key: table `a`, column `x.y`
(quoted identifiers may contain dots) collides with table `a.x`, column
`y`. -/
def collisionSchema : SqlSchema :=
  { tables :=
      [{ name := "a"
         columns := [⟨"x.y", "integer", false, false, false, false⟩]
         primaryKey := []
         uniqueConstraints := [] },
       { name := "t1", columns := [⟨"id", "integer", false, true, false, false⟩],
         primaryKey := ["id"], uniqueConstraints := [] },
       { name := "t2", columns := [⟨"id", "integer", false, true, false, false⟩],
         primaryKey := ["id"], uniqueConstraints := [] }]
    foreignKeys :=
      [⟨"fk1", "a", "x.y", "t2", "id", "one-to-many"⟩,
       ⟨"fk2", "a.x", "y", "t1", "id", "one-to-many"⟩] }

/-- A recommendation with a suggested field name (`liner_notes`) matching no
column of the resolved `artist` table. -/
def recUnknownSuggested : EmbeddingRecommendation :=
  { collection := "album", field := "artistid", strategy := "reference",
    reason := "embed a subset", suggestedFields := some ["name", "liner_notes"],
    confidence := none }

/-- `demoBaseAlbum` under explicit aliasing: cell 0 holds the `album` fields
array. -/
def demoHeap : Heap :=
  [[{ name := "albumid", type := "number", optional := false,
      description := none, refCollection := none, fieldsRef := none },
    { name := "artistid", type := "number", optional := true,
      description := none, refCollection := none, fieldsRef := none }]]

/-- The heap-level baseline schema for `demoHeap`. -/
def demoHSchema : HSchema :=
  { collections := [{ name := "album", fieldsRef := 0, description := none }] }

/-! ## Well-formedness and settledness of the Merger's working map

These predicates drive the idempotence argument: the working map always keys
each collection by its own name with distinct keys, and after a
recommendation has been applied once it is *settled* — re-applying it cannot
change the map. -/

/-- The working map's keys are pairwise distinct and each value is stored
under its own name. -/
def collMapWF (m : List (String × NoSqlCollection)) : Prop :=
  (m.map Prod.fst).Nodup ∧ ∀ p ∈ m, (p.2 : NoSqlCollection).name = p.1

/-- A recommendation is settled on a working map: if its target collection is
present, the collection carries a first field with the computed nested name
whose state makes re-applying the recommendation a no-op. -/
def recSettled (sqlSchema : SqlSchema) (m : List (String × NoSqlCollection))
    (r : EmbeddingRecommendation) : Prop :=
  ∀ c, jsMapGet m r.collection = some c →
    ∃ e, c.fields.find? (fun f => f.name == nestedNameOf r) = some e ∧
      (nestedFieldsOpt sqlSchema r = none ∨
       nestedFieldsOpt sqlSchema r = some [] ∨
       e.type ≠ "object" ∨
       (∃ nfs l, nestedFieldsOpt sqlSchema r = some nfs ∧ e.fields = some l ∧
         ∀ nf ∈ nfs, nf.name ∈ l.map NoSqlField.name))

/-! ## Claims about the Dependency Resolver (C2, C3) -/

/-- C2 (counterexample): on a Document Schema where collection `a` embeds `b`
and `b` embeds `a`, the dependency map records the mutual dependency — the
graph is cyclic — yet per-collection migration output is still produced for
both collections, in original schema order; there is no structural-error
report and no empty output, contrary to the claim. -/
theorem c2_counterexample :
    depsMap cyclicSchema = [("a", ["b"]), ("b", ["a"])] ∧
    migrationScriptPlans cyclicSchema = [("a", ["b"]), ("b", ["a"])] ∧
    scriptGenerationOrder cyclicSchema = ["a", "b"] := by
  refine ⟨?_, ?_, ?_⟩ <;> rfl

/-- C2 (amended): the script-generation phase performs no cycle detection at
all: for every Document Schema — cyclic or not — one migration plan is
emitted per collection, keyed by the collection names in original schema
order. -/
theorem c2_no_cycle_detection (schema : NoSqlSchema) :
    (migrationScriptPlans schema).map Prod.fst = schema.collections.map (·.name) ∧
    (migrationScriptPlans schema).length = schema.collections.length := by
  constructor
  · simp [migrationScriptPlans]
  · simp [migrationScriptPlans]

/-- C3 (counterexample): on an acyclic Document Schema whose first collection
(`album`) embeds its second (`artist`), the produced execution order lists the
dependent `album` before its dependency `artist`: the order is not
topological. -/
theorem c3_counterexample :
    depsMap acyclicSchema = [("album", ["artist"]), ("artist", [])] ∧
    scriptGenerationOrder acyclicSchema = ["album", "artist"] := by
  exact ⟨rfl, rfl⟩

/-- C3 (amended): the produced order is simply the original schema order — it
is a function of the collection names alone and ignores the dependency graph
entirely (dependencies are instead passed to each per-collection script as
its preload set). -/
theorem c3_order_ignores_dependencies (s1 s2 : NoSqlSchema)
    (h : s1.collections.map (·.name) = s2.collections.map (·.name)) :
    scriptGenerationOrder s1 = scriptGenerationOrder s2 := by
  simpa [scriptGenerationOrder] using h

/-- C3 (amended, witness): the order-only dependence applied to the acyclic
demonstration schema and a field-free variant of it. -/
theorem c3_order_ignores_dependencies_witness :
    scriptGenerationOrder acyclicSchema =
      scriptGenerationOrder
        { collections :=
            [{ name := "album", fields := [], description := none },
             { name := "artist", fields := [], description := none }] } :=
  c3_order_ignores_dependencies acyclicSchema
    { collections :=
        [{ name := "album", fields := [], description := none },
         { name := "artist", fields := [], description := none }] }
    (by rfl)

/-! ## Claims about the DDL parser (C5) -/

/-- C5 (counterexample): the parser accepts the malformed input
`CREATE TABLE t (a integer, PRIMARY KEY (b))` — whose primary key names the
non-existent column `b` — and returns a schema value on which the spec's
key-column invariant fails; nothing is rejected at construction time. -/
theorem c5_counterexample :
    specKeyColumnsInvariant (parseSqlSchema danglingPkDdl) = false := by
  decide

/-- C5 (amended): on that same malformed input the construction path returns
normally, producing the schema value that contains the dangling primary-key
column name `b`; the violation is discoverable only by inspecting the
returned value, not by any construction-time rejection. -/
theorem c5_parser_returns_dangling_value :
    parseSqlSchema danglingPkDdl =
      { tables :=
          [{ name := "t"
             columns := [⟨"a", "integer", true, false, false, false⟩]
             primaryKey := ["b"]
             uniqueConstraints := [] }]
        foreignKeys := [] } := by
  decide

/-! ## Claims about the Document Schema Mapper (C9) -/

/-- C9: the Mapper is a pure, deterministic function of its input: two
invocations on structurally equal Relational Schema values produce
structurally equal Document Schema values.  (In this embedding `mapToNoSql`
is a total function with no effects, which is exactly the source's shape: it
reads only its argument and allocates its result.) -/
theorem c9_mapper_deterministic (s1 s2 : SqlSchema) (h : s1 = s2) :
    mapToNoSql s1 = mapToNoSql s2 :=
  congrArg mapToNoSql h

/-- C9 (witness): determinism applied at the foreign-key demonstration
schema. -/
theorem c9_mapper_deterministic_witness :
    mapToNoSql demoSqlFk = mapToNoSql demoSqlFk :=
  c9_mapper_deterministic demoSqlFk demoSqlFk rfl

/-! ## Helper lemmas for the Merger claims -/

/-- Membership in `dedupFirst.go`. -/
theorem mem_dedupFirst_go (x : String) :
    ∀ (l : List String) (seen : List String),
      x ∈ dedupFirst.go seen l ↔ (x ∈ l ∧ x ∉ seen) := by
  intro l
  induction l with
  | nil => intro seen; simp [dedupFirst.go]
  | cons y rest ih =>
    intro seen
    by_cases hy : y ∈ seen
    · simp only [dedupFirst.go, if_pos hy, ih, List.mem_cons]
      constructor
      · rintro ⟨hx, hns⟩; exact ⟨Or.inr hx, hns⟩
      · rintro ⟨hx | hx, hns⟩
        · exact absurd (hx ▸ hy) hns
        · exact ⟨hx, hns⟩
    · simp only [dedupFirst.go, if_neg hy, List.mem_cons, ih]
      constructor
      · rintro (rfl | ⟨hx, hns⟩)
        · exact ⟨Or.inl rfl, hy⟩
        · exact ⟨Or.inr hx, fun hc => hns (Or.inr hc)⟩
      · rintro ⟨rfl | hx, hns⟩
        · exact Or.inl rfl
        · by_cases hxy : x = y
          · exact Or.inl hxy
          · exact Or.inr ⟨hx, fun hc => hc.elim hxy hns⟩

/-- Membership survives `dedupFirst`. -/
theorem mem_dedupFirst (x : String) (l : List String) :
    x ∈ dedupFirst l ↔ x ∈ l := by
  simp [dedupFirst, mem_dedupFirst_go]

/-- `dedupFirst` of a non-empty list is non-empty. -/
theorem dedupFirst_ne_nil (x : String) (l : List String) (h : x ∈ l) :
    dedupFirst l ≠ [] := by
  intro hnil
  have := (mem_dedupFirst x l).mpr h
  simp [hnil] at this

/-- Reading a singleton JS map at its key. -/
theorem jsMapGet_singleton (k : String) {α : Type} (v : α) :
    jsMapGet [(k, v)] k = some v := by
  simp [jsMapGet]

/-- The initial working map of a single-collection baseline. -/
theorem initCollectionsMap_singleton (c : NoSqlCollection) :
    initCollectionsMap ⟨[c]⟩ = [(c.name, c)] := by
  simp [initCollectionsMap, jsMapSet]

/-- Overwriting the single entry of a singleton JS map. -/
theorem jsMapSet_singleton (k : String) (v v' : NoSqlCollection) :
    jsMapSet [(k, v)] k v' = [(k, v')] := by
  simp [jsMapSet]

/-- `applyRec` in the no-existing-field case on a single-collection map:
the computed object field is appended. -/
theorem applyRec_push (sqlSchema : SqlSchema) (c : NoSqlCollection)
    (r : EmbeddingRecommendation) (hname : c.name = r.collection)
    (hnone : c.fields.find? (fun f => f.name == nestedNameOf r) = none) :
    applyRec sqlSchema [(c.name, c)] r =
      [(c.name, { c with fields := c.fields ++ [pushedField sqlSchema r] })] := by
  have h1 : jsMapGet [(c.name, c)] r.collection = some c := by
    rw [← hname]; exact jsMapGet_singleton _ _
  unfold applyRec
  rw [h1]
  simp only [hnone]
  rw [← hname, jsMapSet_singleton]

/-- The Merger on a single-collection baseline and single recommendation, in
the no-existing-field case. -/
theorem applyLLM_single_push (sqlSchema : SqlSchema) (c : NoSqlCollection)
    (r : EmbeddingRecommendation) (ins : List String)
    (w : Option (List String)) (hname : c.name = r.collection)
    (hnone : c.fields.find? (fun f => f.name == nestedNameOf r) = none) :
    applyLLMRecommendationsToNoSqlSchema ⟨[c]⟩ sqlSchema
        (some ⟨[r], ins, w⟩) =
      ⟨[{ c with fields := c.fields ++ [pushedField sqlSchema r] }]⟩ := by
  unfold applyLLMRecommendationsToNoSqlSchema
  simp only [List.length_cons, List.length_nil]
  rw [if_neg (by simp)]
  rw [initCollectionsMap_singleton]
  simp only [List.foldl_cons, List.foldl_nil]
  rw [applyRec_push sqlSchema c r hname hnone]
  rfl

/-- Names of the computed nested fields are exactly `allFieldNames`. -/
theorem nestedFieldsFor_names (r : EmbeddingRecommendation) (t : SqlTable) :
    (nestedFieldsFor r t).map NoSqlField.name = allFieldNames r t := by
  unfold nestedFieldsFor
  rw [List.map_map]
  exact List.map_id' (allFieldNames r t)

/-! ## Claims about the Merger's strategy handling (C1) -/

/-- C1 (counterexample): with no foreign key in the schema (so the
relationship of `recImplicitFull` is implicit) and `strategy = "full"`, the
Merger still augments `album` with an object field `artist` whose nested
field set is the complete column set of the `artist` table — a full-embedding
effect by field-set shape.  The recommendation is neither rejected nor
downgraded. -/
theorem c1_counterexample :
    demoSqlArtist.foreignKeys = [] ∧
    recImplicitFull.strategy = "full" ∧
    applyLLMRecommendationsToNoSqlSchema demoBaseAlbum demoSqlArtist
        (some ⟨[recImplicitFull], [], none⟩) =
      ⟨[{ name := "album"
          fields :=
            [.mk "albumid" "number" false none none none,
             .mk "artistid" "number" true none none none,
             .mk "artist" "object" true none none
               (some [.mk "artistid" "number" true none none none,
                      .mk "name" "string" true none none none])]
          description := none }]⟩ ∧
    demoArtistTable.columns.map (·.name) = ["artistid", "name"] :=
  ⟨rfl, rfl, rfl, rfl⟩

/-- C1 (amended): the Merger never inspects the strategy or the relationship
classification.  For a `full` recommendation on an implicit relationship
(no matching foreign key) whose table resolves by name inference and which
carries no suggested-field list, the augmented schema gains an object field
whose nested field set covers every column of the resolved table — exactly
the full-embedding effect the original claim said can never appear. -/
theorem c1_implicit_full_embeds_fully
    (sqlSchema : SqlSchema) (c : NoSqlCollection) (r : EmbeddingRecommendation)
    (t : SqlTable) (ins : List String) (w : Option (List String))
    (hstrat : r.strategy = "full")
    (himpl : sqlSchema.foreignKeys.find?
        (fun k => k.fromTable == r.collection && k.fromColumn == r.field) = none)
    (hinf : inferTableByName sqlSchema r.field = some t)
    (hsugg : r.suggestedFields = none)
    (hcols : t.columns ≠ [])
    (hname : c.name = r.collection)
    (hnone : c.fields.find? (fun f => f.name == nestedNameOf r) = none) :
    applyLLMRecommendationsToNoSqlSchema ⟨[c]⟩ sqlSchema (some ⟨[r], ins, w⟩) =
      ⟨[{ c with fields := c.fields ++
          [NoSqlField.mk (nestedNameOf r) "object" true none none
            (some (nestedFieldsFor r t))] }]⟩ ∧
    ∀ col ∈ t.columns, col.name ∈ (nestedFieldsFor r t).map NoSqlField.name := by
  have hres : resolveReferencedTable sqlSchema r = some t := by
    unfold resolveReferencedTable
    rw [himpl]
    simpa using hinf
  have hmemall : ∀ col ∈ t.columns, col.name ∈ allFieldNames r t := by
    intro col hcol
    rw [allFieldNames, mem_dedupFirst]
    refine List.mem_append_left _ ?_
    rw [baseFieldNames, hsugg]
    exact List.mem_map_of_mem _ hcol
  have hlen : (nestedFieldsFor r t).length > 0 := by
    obtain ⟨col, hcol⟩ := List.exists_mem_of_ne_nil t.columns hcols
    have hmem : col.name ∈ (nestedFieldsFor r t).map NoSqlField.name := by
      rw [nestedFieldsFor_names]; exact hmemall col hcol
    have hne := List.ne_nil_of_mem hmem
    have := List.length_pos.mpr hne
    simpa using this
  refine ⟨?_, fun col hcol => by rw [nestedFieldsFor_names]; exact hmemall col hcol⟩
  have hpf : pushedField sqlSchema r =
      NoSqlField.mk (nestedNameOf r) "object" true none none
        (some (nestedFieldsFor r t)) := by
    unfold pushedField
    rw [nestedFieldsOpt, hres]
    simp [hlen]
  rw [applyLLM_single_push sqlSchema c r ins w hname hnone, hpf]

/-- C1 (witness): the amended theorem applied to the concrete implicit-`full`
recommendation against the `artist` table. -/
theorem c1_implicit_full_embeds_fully_witness :
    applyLLMRecommendationsToNoSqlSchema ⟨[demoAlbumCollection]⟩ demoSqlArtist
        (some ⟨[recImplicitFull], [], none⟩) =
      ⟨[{ demoAlbumCollection with
            fields := demoAlbumCollection.fields ++
              [NoSqlField.mk (nestedNameOf recImplicitFull) "object" true none none
                (some (nestedFieldsFor recImplicitFull demoArtistTable))] }]⟩ ∧
    ∀ col ∈ demoArtistTable.columns,
      col.name ∈ (nestedFieldsFor recImplicitFull demoArtistTable).map NoSqlField.name :=
  c1_implicit_full_embeds_fully demoSqlArtist demoAlbumCollection recImplicitFull
    demoArtistTable [] none rfl rfl rfl rfl (by decide) rfl rfl

/-! ## Claims about unresolvable recommendations (C4) -/

/-- C4 (counterexample): for `recUnresolvable` (collection `album` exists,
but no foreign key matches `album.xyzid` and no table is named
`xyz`/`xyzs`/`xyzes`) the Merger does not leave the field list unchanged: it
appends a new empty optional object field `xyz` (the field count grows from 2
to 3). -/
theorem c4_counterexample :
    applyLLMRecommendationsToNoSqlSchema demoBaseAlbum demoSqlArtist
        (some ⟨[recUnresolvable], [], none⟩) =
      ⟨[{ name := "album"
          fields :=
            [.mk "albumid" "number" false none none none,
             .mk "artistid" "number" true none none none,
             .mk "xyz" "object" true none none none]
          description := none }]⟩ ∧
    demoAlbumCollection.fields.length = 2 ∧
    ((applyLLMRecommendationsToNoSqlSchema demoBaseAlbum demoSqlArtist
        (some ⟨[recUnresolvable], [], none⟩)).collections.headD
      demoAlbumCollection).fields.length = 3 :=
  ⟨rfl, rfl, rfl⟩

/-- C4 (amended): when the target collection exists, the referenced table is
entirely unresolvable, and the collection has no field with the computed
nested name, the Merger does not skip the recommendation: it appends a new
optional `object` field with the computed nested name and no nested fields.
(Only a recommendation naming an unknown collection is skipped outright.) -/
theorem c4_unresolvable_appends_stub
    (sqlSchema : SqlSchema) (c : NoSqlCollection) (r : EmbeddingRecommendation)
    (ins : List String) (w : Option (List String))
    (hfk : sqlSchema.foreignKeys.find?
        (fun k => k.fromTable == r.collection && k.fromColumn == r.field) = none)
    (hinf : inferTableByName sqlSchema r.field = none)
    (hname : c.name = r.collection)
    (hnone : c.fields.find? (fun f => f.name == nestedNameOf r) = none) :
    applyLLMRecommendationsToNoSqlSchema ⟨[c]⟩ sqlSchema (some ⟨[r], ins, w⟩) =
      ⟨[{ c with fields := c.fields ++
          [NoSqlField.mk (nestedNameOf r) "object" true none none none] }]⟩ := by
  have hres : resolveReferencedTable sqlSchema r = none := by
    unfold resolveReferencedTable
    rw [hfk]
    simpa using hinf
  have hpf : pushedField sqlSchema r =
      NoSqlField.mk (nestedNameOf r) "object" true none none none := by
    unfold pushedField
    rw [nestedFieldsOpt, hres]
    rfl
  rw [applyLLM_single_push sqlSchema c r ins w hname hnone, hpf]

/-- C4 (witness): the amended theorem applied to the concrete unresolvable
recommendation. -/
theorem c4_unresolvable_appends_stub_witness :
    applyLLMRecommendationsToNoSqlSchema ⟨[demoAlbumCollection]⟩ demoSqlArtist
        (some ⟨[recUnresolvable], [], none⟩) =
      ⟨[{ demoAlbumCollection with
            fields := demoAlbumCollection.fields ++
              [NoSqlField.mk (nestedNameOf recUnresolvable) "object" true none none
                none] }]⟩ :=
  c4_unresolvable_appends_stub demoSqlArtist demoAlbumCollection recUnresolvable
    [] none rfl rfl rfl rfl

/-! ## Claims about unrecognized suggested field names (C10) -/

/-- C10: a suggested field name that matches no column of the resolved table
(case-insensitively) is carried through: the computed nested field set
contains a field with that exact name, typed `unknown` and optional, and —
when the target collection has no field with the computed nested name — that
nested field set is installed inside the appended object field. -/
theorem c10_unknown_suggested_name_carried
    (sqlSchema : SqlSchema) (c : NoSqlCollection) (r : EmbeddingRecommendation)
    (t : SqlTable) (sfs : List String) (nm : String)
    (ins : List String) (w : Option (List String))
    (hres : resolveReferencedTable sqlSchema r = some t)
    (hsugg : r.suggestedFields = some sfs)
    (hne : sfs ≠ [])
    (hmem : nm ∈ sfs)
    (hnocol : ∀ col ∈ t.columns, jsToLower col.name ≠ jsToLower nm)
    (hname : c.name = r.collection)
    (hnone : c.fields.find? (fun f => f.name == nestedNameOf r) = none) :
    NoSqlField.mk nm "unknown" true none none none ∈ nestedFieldsFor r t ∧
    applyLLMRecommendationsToNoSqlSchema ⟨[c]⟩ sqlSchema (some ⟨[r], ins, w⟩) =
      ⟨[{ c with fields := c.fields ++
          [NoSqlField.mk (nestedNameOf r) "object" true none none
            (some (nestedFieldsFor r t))] }]⟩ := by
  have hpos : sfs.length > 0 := List.length_pos.mpr hne
  have hbase : baseFieldNames r t = sfs := by
    rw [baseFieldNames, hsugg]
    simp [hpos]
  have hmemall : nm ∈ allFieldNames r t := by
    rw [allFieldNames, mem_dedupFirst]
    exact List.mem_append_left _ (hbase ▸ hmem)
  have hfind : t.columns.find? (fun col => jsToLower col.name == jsToLower nm) = none := by
    rw [List.find?_eq_none]
    intro col hcol
    simpa using hnocol col hcol
  have hcarried : NoSqlField.mk nm "unknown" true none none none ∈ nestedFieldsFor r t := by
    unfold nestedFieldsFor
    refine List.mem_map.mpr ⟨nm, hmemall, ?_⟩
    rw [hfind]
  refine ⟨hcarried, ?_⟩
  have hlen : (nestedFieldsFor r t).length > 0 :=
    List.length_pos.mpr (List.ne_nil_of_mem hcarried)
  have hpf : pushedField sqlSchema r =
      NoSqlField.mk (nestedNameOf r) "object" true none none
        (some (nestedFieldsFor r t)) := by
    unfold pushedField
    rw [nestedFieldsOpt, hres]
    simp [hlen]
  rw [applyLLM_single_push sqlSchema c r ins w hname hnone, hpf]

/-- C10 (witness): the concrete recommendation suggesting the unrecognized
name `liner_notes` against the resolved `artist` table. -/
theorem c10_unknown_suggested_name_carried_witness :
    NoSqlField.mk "liner_notes" "unknown" true none none none ∈
      nestedFieldsFor recUnknownSuggested demoArtistTable ∧
    applyLLMRecommendationsToNoSqlSchema ⟨[demoAlbumCollection]⟩ demoSqlArtist
        (some ⟨[recUnknownSuggested], [], none⟩) =
      ⟨[{ demoAlbumCollection with
            fields := demoAlbumCollection.fields ++
              [NoSqlField.mk (nestedNameOf recUnknownSuggested) "object" true none
                none (some (nestedFieldsFor recUnknownSuggested demoArtistTable))] }]⟩ :=
  c10_unknown_suggested_name_carried demoSqlArtist demoAlbumCollection
    recUnknownSuggested demoArtistTable ["name", "liner_notes"] "liner_notes"
    [] none rfl rfl (by decide) (by decide) (by decide) rfl rfl

/-! ## JS map lemmas and the foreign-key lookup (C8) -/

/-- `find?` over the overwrite `map` of `jsMapSet`, at the overwritten key. -/
theorem find?_overwrite_self {α : Type} (m : List (String × α)) (k : String) (v : α) :
    (m.map (fun p => if p.1 == k then (k, v) else p)).find? (fun p => p.1 == k) =
      if m.any (fun p => p.1 == k) then some (k, v) else none := by
  induction m with
  | nil => rfl
  | cons p m ih =>
    by_cases hp : (p.1 == k) = true
    · have h1 : (((k, v) : String × α).1 == k) = true := by simp
      rw [List.map_cons, if_pos hp,
        @List.find?_cons_of_pos _ (fun q => q.1 == k) (k, v) _ h1, List.any_cons, hp,
        Bool.true_or, if_pos rfl]
    · have h1 : (p.1 == k) = false := Bool.eq_false_iff.mpr hp
      rw [List.map_cons, if_neg hp,
        @List.find?_cons_of_neg _ (fun q => q.1 == k) p _ hp, ih, List.any_cons, h1,
        Bool.false_or]

/-- `find?` over the overwrite `map` of `jsMapSet`, at a different key. -/
theorem find?_overwrite_other {α : Type} (m : List (String × α)) (k k' : String)
    (v : α) (h : k ≠ k') :
    (m.map (fun p => if p.1 == k then (k, v) else p)).find? (fun p => p.1 == k') =
      m.find? (fun p => p.1 == k') := by
  induction m with
  | nil => rfl
  | cons p m ih =>
    by_cases hp : p.1 == k
    · have hpk : p.1 = k := by simpa using hp
      have h1 : ((k, v).1 == k') = false := by
        simp only [beq_eq_false_iff_ne]
        exact h
      have h2 : (p.1 == k') = false := by
        rw [hpk]
        simp only [beq_eq_false_iff_ne]
        exact h
      simp only [List.map_cons, if_pos hp, List.find?, h1, h2]
      exact ih
    · simp only [List.map_cons, if_neg hp, List.find?]
      cases hq : (p.1 == k') with
      | true => rfl
      | false => exact ih

/-- Reading a JS map right after writing the same key. -/
theorem jsMapGet_set_self {α : Type} (m : List (String × α)) (k : String) (v : α) :
    jsMapGet (jsMapSet m k v) k = some v := by
  unfold jsMapSet jsMapGet
  by_cases h : m.any (fun p => p.1 == k)
  · rw [if_pos h, find?_overwrite_self, if_pos h]
    rfl
  · rw [if_neg h, List.find?_append]
    have hfalse : m.any (fun p => p.1 == k) = false := Bool.eq_false_iff.mpr h
    have hnone : m.find? (fun p => p.1 == k) = none :=
      List.find?_eq_none.mpr (List.any_eq_false.mp hfalse)
    rw [hnone]
    simp [List.find?]

/-- Reading a JS map after writing a different key. -/
theorem jsMapGet_set_other {α : Type} (m : List (String × α)) (k k' : String)
    (v : α) (h : k' ≠ k) :
    jsMapGet (jsMapSet m k v) k' = jsMapGet m k' := by
  unfold jsMapSet jsMapGet
  by_cases hany : m.any (fun p => p.1 == k)
  · rw [if_pos hany, find?_overwrite_other m k k' v (Ne.symm h)]
  · rw [if_neg hany, List.find?_append]
    have hone : [(k, v)].find? (fun p => p.1 == k') = none := by
      have hkk : ((k, v).1 == k') = false := by
        simp only [beq_eq_false_iff_ne]
        exact Ne.symm h
      simp [List.find?, hkk]
    rw [hone]
    cases m.find? (fun p => p.1 == k') <;> rfl

/-- The `fkByTableAndColumn` fold, characterized: a lookup returns the target
of the **last** foreign key whose concatenated `fromTable + "." + fromColumn`
key equals the probe (or falls through to the accumulator). -/
theorem fkMap_fold_get (key : String) :
    ∀ (fks : List SqlForeignKey) (m : List (String × String)),
      jsMapGet (fks.foldl (fun m fk =>
          jsMapSet m (fk.fromTable ++ "." ++ fk.fromColumn) fk.toTable) m) key =
        (match (fks.filter
            (fun k => (k.fromTable ++ "." ++ k.fromColumn) == key)).getLast? with
         | some k => some k.toTable
         | none => jsMapGet m key) := by
  intro fks
  induction fks with
  | nil => intro m; rfl
  | cons fk fks ih =>
    intro m
    simp only [List.foldl_cons]
    rw [ih]
    by_cases hk : ((fk.fromTable ++ "." ++ fk.fromColumn) == key) = true
    · rw [List.filter_cons, if_pos hk]
      have hkey : fk.fromTable ++ "." ++ fk.fromColumn = key := by simpa using hk
      cases hfl : fks.filter (fun k => (k.fromTable ++ "." ++ k.fromColumn) == key) with
      | nil =>
        simp only [hfl, List.getLast?_singleton]
        rw [hkey, jsMapGet_set_self]
        rfl
      | cons x xs =>
        rw [hfl] at *
        rw [List.getLast?_cons_cons]
        cases hgl : (x :: xs).getLast? with
        | some y => rfl
        | none => exact absurd (List.getLast?_eq_none_iff.mp hgl) (by simp)
    · rw [List.filter_cons, if_neg hk]
      cases hgl : (fks.filter (fun k => (k.fromTable ++ "." ++ k.fromColumn) == key)).getLast? with
      | some y => rfl
      | none =>
        simp only
        have hne : key ≠ fk.fromTable ++ "." ++ fk.fromColumn := by
          intro hc
          exact hk (by simp [hc])
        exact jsMapGet_set_other m _ key fk.toTable hne

/-- C8 (counterexample): in `collisionSchema` the unique foreign key whose
source table and column match `(a, x.y)` targets `t2`, yet the mapper emits
`refCollection = "t1"`: the lookup is keyed by the concatenated string
`"a.x.y"`, which the unrelated foreign key `(a.x, y) → t1` overwrites. -/
theorem c8_counterexample :
    collisionSchema.foreignKeys.filter
        (fun k => k.fromTable == "a" && k.fromColumn == "x.y") =
      [⟨"fk1", "a", "x.y", "t2", "id", "one-to-many"⟩] ∧
    ((mapToNoSql collisionSchema).collections.headD ⟨"", [], none⟩).fields =
      [.mk "x.y" "reference" false (some "Reference to t1.id") (some "t1") none] :=
  ⟨rfl, rfl⟩

/-- C8 (amended): the Mapper emits exactly one collection per table with the
same name and order; and for a column whose **concatenated-key match**
`fromTable + "." + fromColumn` is unique and genuinely matches the table and
column, the emitted field is the claimed `reference` field (name, optionality
from nullability, `refCollection` = the target table, description naming the
target's primary key).  The identity naming in the description follows
`findPrimaryKey`: a single name for a single-column primary key, the
comma-joined ordered list for a composite one, `"id"` when the target is
absent or declares no primary key.  The source guards the reference branch
with a truthiness test on the looked-up target name, so the reference field
is emitted only when the winning key's target table name is non-empty; with
an empty target name the column falls through to the ordinary type-mapped
field, which the third conjunct records.  (The original claim fails only
when two distinct foreign keys collide on the concatenated key; the
counterexample forces exactly that caveat.) -/
theorem c8_mapper_reference_fields (s : SqlSchema) :
    ((mapToNoSql s).collections.map (fun c => c.name) = s.tables.map (fun t => t.name)) ∧
    (∀ table ∈ s.tables, ∀ col ∈ table.columns, ∀ fk : SqlForeignKey,
      s.foreignKeys.filter
          (fun k => (k.fromTable ++ "." ++ k.fromColumn) ==
            (table.name ++ "." ++ col.name)) = [fk] →
      fk.toTable ≠ "" →
      ∃ c ∈ (mapToNoSql s).collections, c.name = table.name ∧
        NoSqlField.mk col.name "reference" col.nullable
          (some ("Reference to " ++ fk.toTable ++ "." ++
            jsInterp (findPrimaryKey s fk.toTable)))
          (some fk.toTable) none ∈ c.fields) ∧
    (∀ tableName : String, ∀ col : SqlColumn,
      jsMapGet (fkByTableAndColumn s.foreignKeys)
          (tableName ++ "." ++ col.name) = some "" →
      mapColumnToField s (fkByTableAndColumn s.foreignKeys) tableName col =
        NoSqlField.mk col.name (mapColumnTypeToNoSql col.type)
          col.nullable none none none) ∧
    (∀ tname : String,
      (s.tables.find? (fun t => t.name == tname) = none →
        jsInterp (findPrimaryKey s tname) = "id") ∧
      (∀ t', s.tables.find? (fun t => t.name == tname) = some t' →
        t'.primaryKey = [] → jsInterp (findPrimaryKey s tname) = "id") ∧
      (∀ t' p, s.tables.find? (fun t => t.name == tname) = some t' →
        t'.primaryKey = [p] → jsInterp (findPrimaryKey s tname) = p) ∧
      (∀ t', s.tables.find? (fun t => t.name == tname) = some t' →
        2 ≤ t'.primaryKey.length →
        jsInterp (findPrimaryKey s tname) = jsJoin "," t'.primaryKey)) := by
  refine ⟨?_, ?_, ?_, ?_⟩
  · unfold mapToNoSql
    simp
  · intro table htable col hcol fk hfil hne
    refine ⟨{ name := table.name
              fields := table.columns.map
                (mapColumnToField s (fkByTableAndColumn s.foreignKeys) table.name)
              description := some ("Collection derived from table " ++ table.name) },
            ?_, rfl, ?_⟩
    · unfold mapToNoSql
      exact List.mem_map_of_mem _ htable
    · have hget : jsMapGet (fkByTableAndColumn s.foreignKeys)
          (table.name ++ "." ++ col.name) = some fk.toTable := by
        unfold fkByTableAndColumn
        rw [fkMap_fold_get]
        rw [hfil, List.getLast?_singleton]
      have hfield : mapColumnToField s (fkByTableAndColumn s.foreignKeys)
          table.name col =
          NoSqlField.mk col.name "reference" col.nullable
            (some ("Reference to " ++ fk.toTable ++ "." ++
              jsInterp (findPrimaryKey s fk.toTable)))
            (some fk.toTable) none := by
        unfold mapColumnToField
        rw [hget]
        exact if_neg hne
      rw [← hfield]
      exact List.mem_map_of_mem _ hcol
  · intro tableName col hget
    unfold mapColumnToField
    rw [hget]
    exact if_pos rfl
  · intro tname
    refine ⟨?_, ?_, ?_, ?_⟩
    · intro hnone
      unfold findPrimaryKey
      rw [hnone]
      rfl
    · intro t' hsome hpk
      unfold findPrimaryKey
      rw [hsome]
      simp [hpk, jsInterp]
    · intro t' p hsome hpk
      unfold findPrimaryKey
      rw [hsome]
      simp [hpk, jsInterp]
    · intro t' hsome hlen
      unfold findPrimaryKey
      rw [hsome]
      show jsInterp
        (if t'.primaryKey.length = 0 then Sum.inl "id"
         else if t'.primaryKey.length = 1 then Sum.inl (t'.primaryKey.headD "")
         else Sum.inr t'.primaryKey) = jsJoin "," t'.primaryKey
      rw [if_neg (by omega), if_neg (by omega)]
      rfl

/-- C8 (witness): the amended theorem applied to the `album.artistid →
artist.artistid` demonstration schema. -/
theorem c8_mapper_reference_fields_witness :
    ∃ c ∈ (mapToNoSql demoSqlFk).collections, c.name = "album" ∧
      NoSqlField.mk "artistid" "reference" true
        (some ("Reference to " ++ "artist" ++ "." ++
          jsInterp (findPrimaryKey demoSqlFk "artist")))
        (some "artist") none ∈ c.fields := by
  have h := (c8_mapper_reference_fields demoSqlFk).2.1
    { name := "album"
      columns :=
        [⟨"albumid", "integer", false, true, false, false⟩,
         ⟨"artistid", "integer", true, false, false, false⟩]
      primaryKey := ["albumid"]
      uniqueConstraints := [] }
    (by decide)
    ⟨"artistid", "integer", true, false, false, false⟩
    (by decide)
    ⟨"album_artistid_fk", "album", "artistid", "artist", "artistid", "one-to-many"⟩
    (by decide)
    (by decide)
  exact h

/-! ## The frame property of the Merger (C6) -/

/-- Setting an index beyond a prefix leaves the prefix intact. -/
theorem set_append_right (l1 l2 : Heap) (r : Nat) (cell : List HField)
    (hr : l1.length ≤ r) :
    (l1 ++ l2).set r cell = l1 ++ l2.set (r - l1.length) cell := by
  rw [List.set_append, if_neg (by omega)]

/-- Reading inside a prefix ignores the extension. -/
theorem readCell_append (h ext : Heap) (i : Nat) (hi : i < h.length) :
    readCell (h ++ ext) i = readCell h i := by
  unfold readCell
  rw [List.getD_eq_getElem?_getD, List.getD_eq_getElem?_getD, List.getElem?_append,
    if_pos hi]

/-- A member of a JS map after `set` is an old member or the new pair. -/
theorem mem_jsMapSet {α : Type} (m : List (String × α)) (k : String) (v : α)
    (p : String × α) (hp : p ∈ jsMapSet m k v) : p ∈ m ∨ p = (k, v) := by
  unfold jsMapSet at hp
  by_cases hany : m.any (fun q => q.1 == k)
  · rw [if_pos hany] at hp
    obtain ⟨q, hq, hqe⟩ := List.mem_map.mp hp
    by_cases hqk : (q.1 == k) = true
    · rw [if_pos hqk] at hqe
      exact Or.inr hqe.symm
    · rw [if_neg hqk] at hqe
      exact Or.inl (hqe ▸ hq)
  · rw [if_neg hany] at hp
    rcases List.mem_append.mp hp with h1 | h2
    · exact Or.inl h1
    · exact Or.inr (by simpa using h2)

/-- A successful JS map lookup comes from a member pair. -/
theorem jsMapGet_mem {α : Type} (m : List (String × α)) (k : String) (v : α)
    (h : jsMapGet m k = some v) : ∃ p ∈ m, p.2 = v := by
  unfold jsMapGet at h
  cases hf : m.find? (fun p => p.1 == k) with
  | none => rw [hf] at h; cases h
  | some q =>
    rw [hf] at h
    exact ⟨q, List.mem_of_find?_eq_some hf, by simpa using h⟩

/-- One heap-level recommendation step: the heap may only grow new cells or
overwrite cells at indices at or beyond `orig.length`; the working map is
untouched. -/
theorem writeCell_extends (orig ext : Heap) (r : Nat) (cell : List HField)
    (hr : orig.length ≤ r) :
    ∃ ext', writeCell (orig ++ ext) r cell = orig ++ ext' :=
  ⟨ext.set (r - orig.length) cell, by
    unfold writeCell
    rw [List.set_append, if_neg (by omega)]⟩

theorem applyRecH_step (sqlSchema : SqlSchema) (orig : Heap)
    (r : EmbeddingRecommendation) (h : Heap) (m : List (String × HCollection))
    (hext : ∃ ext, h = orig ++ ext)
    (hm : ∀ p ∈ m, orig.length ≤ (p.2 : HCollection).fieldsRef) :
    (∃ ext, (applyRecH sqlSchema (h, m) r).1 = orig ++ ext) ∧
    (applyRecH sqlSchema (h, m) r).2 = m := by
  obtain ⟨ext, hh⟩ := hext
  subst hh
  cases hget : jsMapGet m r.collection with
  | none =>
    simp only [applyRecH, hget]
    exact ⟨⟨ext, rfl⟩, by first | rfl | trivial⟩
  | some collection =>
    obtain ⟨p, hpmem, hpv⟩ := jsMapGet_mem m r.collection collection hget
    have href : orig.length ≤ collection.fieldsRef := hpv ▸ hm p hpmem
    cases hrt : resolveReferencedTable sqlSchema r with
    | none =>
      simp only [applyRecH, hget, hrt]
      cases hfind : (readCell (orig ++ ext) collection.fieldsRef).find?
          (fun f => f.name == nestedNameOf r) with
      | some existing =>
        simp only [hfind]
        exact ⟨⟨ext, rfl⟩, by first | rfl | trivial⟩
      | none =>
        simp only [hfind]
        refine ⟨?_, by first | rfl | trivial⟩
        exact writeCell_extends orig ext _ _ href
    | some t =>
      simp only [applyRecH, hget, hrt, allocCell]
      cases hfind : (readCell (orig ++ ext) collection.fieldsRef).find?
          (fun f => f.name == nestedNameOf r) with
      | some existing =>
        simp only [hfind]
        by_cases hcond : (existing.type == "object" &&
            decide ((hNestedFieldsFor r t).length > 0)) = true
        · rw [if_pos hcond]
          refine ⟨?_, by first | rfl | trivial⟩
          rw [List.append_assoc, List.append_assoc]
          exact writeCell_extends orig _ _ _ href
        · rw [if_neg hcond]
          exact ⟨⟨ext ++ [hNestedFieldsFor r t], by rw [List.append_assoc]⟩,
            by first | rfl | trivial⟩
      | none =>
        simp only [hfind]
        refine ⟨?_, by first | rfl | trivial⟩
        rw [List.append_assoc]
        exact writeCell_extends orig _ _ _ href

/-- The recommendation fold only extends or rewrites fresh heap cells and
never touches the working map. -/
theorem foldl_applyRecH_extends (sqlSchema : SqlSchema) (orig : Heap) :
    ∀ (recs : List EmbeddingRecommendation) (h : Heap)
      (m : List (String × HCollection)),
      (∃ ext, h = orig ++ ext) →
      (∀ p ∈ m, orig.length ≤ (p.2 : HCollection).fieldsRef) →
      (∃ ext, (recs.foldl (applyRecH sqlSchema) (h, m)).1 = orig ++ ext) ∧
      (recs.foldl (applyRecH sqlSchema) (h, m)).2 = m := by
  intro recs
  induction recs with
  | nil => intro h m hext _; exact ⟨hext, rfl⟩
  | cons r recs ih =>
    intro h m hext hm
    simp only [List.foldl_cons]
    obtain ⟨hext', hm'⟩ := applyRecH_step sqlSchema orig r h m hext hm
    have hpair : applyRecH sqlSchema (h, m) r =
        ((applyRecH sqlSchema (h, m) r).1, m) :=
      Prod.ext_iff.mpr ⟨rfl, hm'⟩
    rw [hpair]
    exact ih _ m hext' hm

/-- The copy phase allocates a fresh fields cell for every collection: the
heap only grows, and every copied collection references a fresh cell. -/
theorem copyCollectionsH_go (orig : Heap) :
    ∀ (cs : List HCollection) (h0 : Heap) (m0 : List (String × HCollection)),
      (∃ ext, h0 = orig ++ ext) →
      (∀ p ∈ m0, orig.length ≤ (p.2 : HCollection).fieldsRef) →
      (∃ ext, (cs.foldl
          (fun (st : Heap × List (String × HCollection)) c =>
            let (h, m) := st
            let (h', ref) := allocCell h (readCell h c.fieldsRef)
            (h', jsMapSet m c.name { c with fieldsRef := ref })) (h0, m0)).1 =
        orig ++ ext) ∧
      (∀ p ∈ (cs.foldl
          (fun (st : Heap × List (String × HCollection)) c =>
            let (h, m) := st
            let (h', ref) := allocCell h (readCell h c.fieldsRef)
            (h', jsMapSet m c.name { c with fieldsRef := ref })) (h0, m0)).2,
        orig.length ≤ (p.2 : HCollection).fieldsRef) := by
  intro cs
  induction cs with
  | nil => intro h0 m0 hext hm; exact ⟨hext, hm⟩
  | cons c cs ih =>
    intro h0 m0 hext hm
    obtain ⟨ext, hh⟩ := hext
    subst hh
    simp only [List.foldl_cons, allocCell]
    refine ih _ _ ⟨ext ++ [readCell (orig ++ ext) c.fieldsRef],
      (List.append_assoc _ _ _)⟩ ?_
    intro p hp
    rcases mem_jsMapSet _ _ _ p hp with hold | hnew
    · exact hm p hold
    · rw [hnew]
      simp [List.length_append]

/-- C6: the Advisory Augmentation Merger does not mutate its baseline input.
Under the explicit-aliasing (heap) embedding: the final heap extends the
input heap (so every array reachable from the baseline schema — each
collection's fields array and every nested fields array — is unchanged,
hence the baseline is structurally identical to its pre-call value), and
whenever the merger actually runs (non-empty recommendation list) every
collection of the returned schema references a freshly allocated cell, so the
result is an independent value. -/
theorem c6_merger_does_not_mutate_baseline (h : Heap) (base : HSchema)
    (sqlSchema : SqlSchema) (llm : Option LLMRecommendations) :
    (∃ ext, (applyLLMHeap h base sqlSchema llm).1 = h ++ ext) ∧
    (∀ i, i < h.length →
      readCell (applyLLMHeap h base sqlSchema llm).1 i = readCell h i) ∧
    (∀ l, llm = some l → l.embeddings ≠ [] →
      ∀ c ∈ (applyLLMHeap h base sqlSchema llm).2.collections,
        h.length ≤ c.fieldsRef) := by
  have main : (∃ ext, (applyLLMHeap h base sqlSchema llm).1 = h ++ ext) ∧
      (∀ l, llm = some l → l.embeddings ≠ [] →
        ∀ c ∈ (applyLLMHeap h base sqlSchema llm).2.collections,
          h.length ≤ c.fieldsRef) := by
    cases llm with
    | none =>
      refine ⟨⟨[], by simp [applyLLMHeap]⟩, ?_⟩
      intro l hl
      cases hl
    | some l =>
      by_cases hlen : l.embeddings.length = 0
      · refine ⟨⟨[], by simp [applyLLMHeap, hlen]⟩, ?_⟩
        intro l' hl' hne
        cases hl'
        exact absurd (List.length_eq_zero.mp hlen) hne
      · have hcopy := copyCollectionsH_go h base.collections h []
          ⟨[], (List.append_nil h).symm⟩ (by intro p hp; cases hp)
        cases hcp : base.collections.foldl
            (fun (st : Heap × List (String × HCollection)) c =>
              let (h, m) := st
              let (h', ref) := allocCell h (readCell h c.fieldsRef)
              (h', jsMapSet m c.name { c with fieldsRef := ref })) (h, []) with
        | mk h1 m1 =>
          rw [hcp] at hcopy
          obtain ⟨hext1, hm1⟩ := hcopy
          have hfold := foldl_applyRecH_extends sqlSchema h l.embeddings h1 m1
            hext1 hm1
          cases hfd : l.embeddings.foldl (applyRecH sqlSchema) (h1, m1) with
          | mk h2 m2 =>
            rw [hfd] at hfold
            obtain ⟨hext2, hm2⟩ := hfold
            have hext2' : ∃ ext, h2 = h ++ ext := hext2
            have hm2' : m2 = m1 := hm2
            have hm1' : ∀ p ∈ m1, h.length ≤ (p.2 : HCollection).fieldsRef := hm1
            have happ : applyLLMHeap h base sqlSchema (some l) =
                (h2, { collections := m2.map (·.2) }) := by
              simp only [applyLLMHeap, copyCollectionsH, if_neg hlen, hcp, hfd]
            rw [happ]
            refine ⟨hext2', ?_⟩
            intro l' hl' _ c hc
            obtain ⟨p, hp, hpc⟩ := List.mem_map.mp hc
            rw [hm2'] at hp
            exact hpc ▸ hm1' p hp
  refine ⟨main.1, ?_, main.2⟩
  intro i hi
  obtain ⟨ext, hext⟩ := main.1
  rw [hext]
  exact readCell_append h ext i hi

/-- C6 (witness): the frame property at the concrete heap-level baseline with
the implicit-`full` recommendation. -/
theorem c6_merger_does_not_mutate_baseline_witness :
    (∃ ext, (applyLLMHeap demoHeap demoHSchema demoSqlArtist
        (some ⟨[recImplicitFull], [], none⟩)).1 = demoHeap ++ ext) ∧
    (∀ c ∈ (applyLLMHeap demoHeap demoHSchema demoSqlArtist
        (some ⟨[recImplicitFull], [], none⟩)).2.collections,
      demoHeap.length ≤ c.fieldsRef) :=
  ⟨(c6_merger_does_not_mutate_baseline demoHeap demoHSchema demoSqlArtist
      (some ⟨[recImplicitFull], [], none⟩)).1,
   (c6_merger_does_not_mutate_baseline demoHeap demoHSchema demoSqlArtist
      (some ⟨[recImplicitFull], [], none⟩)).2.2 ⟨[recImplicitFull], [], none⟩ rfl
      (List.cons_ne_nil _ _)⟩

/-! ## Idempotence of the Merger (C7): auxiliary lemmas -/

/-- `withFields` keeps the field name. -/
theorem withFields_name (e : NoSqlField) (fs : Option (List NoSqlField)) :
    (e.withFields fs).name = e.name := by
  cases e; rfl

/-- `withFields` keeps the field type. -/
theorem withFields_type (e : NoSqlField) (fs : Option (List NoSqlField)) :
    (e.withFields fs).type = e.type := by
  cases e; rfl

/-- `withFields` installs the new nested list. -/
theorem withFields_fields (e : NoSqlField) (fs : Option (List NoSqlField)) :
    (e.withFields fs).fields = fs := by
  cases e; rfl

/-- Re-installing a field's own nested list is the identity. -/
theorem withFields_eq_self (e : NoSqlField) (l : List NoSqlField)
    (h : e.fields = some l) : e.withFields (some l) = e := by
  cases e with
  | mk n t o d rc fs =>
    cases fs with
    | none => cases h
    | some l' =>
      cases h
      rfl

/-- `nodupNames` is pairwise distinctness of the names. -/
theorem nodupNames_iff (l : List NoSqlField) :
    nodupNames l = true ↔ (l.map NoSqlField.name).Nodup := by
  induction l with
  | nil => simp [nodupNames]
  | cons f rest ih =>
    simp only [nodupNames, Bool.and_eq_true, Bool.not_eq_true', List.map_cons,
      List.nodup_cons, ih, List.any_eq_false]
    constructor
    · rintro ⟨h1, h2⟩
      refine ⟨?_, h2⟩
      intro hmem
      obtain ⟨g, hg, hge⟩ := List.mem_map.mp hmem
      have := h1 g hg
      simp [hge] at this
    · rintro ⟨h1, h2⟩
      refine ⟨?_, h2⟩
      intro g hg
      simp only [beq_iff_eq]
      intro hge
      exact h1 (List.mem_map.mpr ⟨g, hg, hge⟩)

/-- `fieldsDupFree` is elementwise `fieldDupFree`. -/
theorem fieldsDupFree_iff (l : List NoSqlField) :
    fieldsDupFree l = true ↔ ∀ f ∈ l, fieldDupFree f = true := by
  induction l with
  | nil => simp [fieldsDupFree]
  | cons f rest ih =>
    simp only [fieldsDupFree, Bool.and_eq_true, ih, List.mem_cons]
    constructor
    · rintro ⟨h1, h2⟩ g (rfl | hg)
      · exact h1
      · exact h2 g hg
    · intro h
      exact ⟨h f (Or.inl rfl), fun g hg => h g (Or.inr hg)⟩

/-- `dedupFirst` has pairwise distinct elements. -/
theorem dedupFirst_nodup (l : List String) : (dedupFirst l).Nodup := by
  suffices h : ∀ (seen : List String), (dedupFirst.go seen l).Nodup by
    exact h []
  induction l with
  | nil => intro seen; simp [dedupFirst.go]
  | cons x rest ih =>
    intro seen
    by_cases hx : x ∈ seen
    · rw [dedupFirst.go, if_pos hx]
      exact ih seen
    · rw [dedupFirst.go, if_neg hx]
      refine List.nodup_cons.mpr ⟨?_, ih (x :: seen)⟩
      intro hmem
      have := (mem_dedupFirst_go x rest (x :: seen)).mp hmem
      exact this.2 (List.mem_cons_self x seen)

/-- Each computed nested field carries no nested list of its own, hence is
trivially duplicate-free. -/
theorem nestedFieldsFor_elem (r : EmbeddingRecommendation) (t : SqlTable) :
    ∀ nf ∈ nestedFieldsFor r t, nf.fields = none ∧ fieldDupFree nf = true := by
  intro nf hnf
  obtain ⟨x, _, hx⟩ := List.mem_map.mp hnf
  cases hx
  exact ⟨rfl, rfl⟩

/-- The computed nested fields have pairwise distinct names. -/
theorem nestedFieldsFor_nodup (r : EmbeddingRecommendation) (t : SqlTable) :
    nodupNames (nestedFieldsFor r t) = true := by
  rw [nodupNames_iff, nestedFieldsFor_names]
  exact dedupFirst_nodup _

/-- The merge loop appends some subset of the new fields. -/
theorem mergeNestedAux_append (nfs : List NoSqlField) :
    ∀ (seen : List String) (acc : List NoSqlField),
      ∃ added, mergeNestedAux seen acc nfs = acc ++ added ∧
        ∀ f ∈ added, f ∈ nfs := by
  induction nfs with
  | nil => intro seen acc; exact ⟨[], by simp [mergeNestedAux]⟩
  | cons nf rest ih =>
    intro seen acc
    by_cases hn : nf.name ∈ seen
    · rw [mergeNestedAux, if_pos hn]
      obtain ⟨added, he, hsub⟩ := ih seen acc
      exact ⟨added, he, fun f hf => List.mem_cons_of_mem _ (hsub f hf)⟩
    · rw [mergeNestedAux, if_neg hn]
      obtain ⟨added, he, hsub⟩ := ih (nf.name :: seen) (acc ++ [nf])
      refine ⟨nf :: added, ?_, ?_⟩
      · rw [he, List.append_assoc]
        rfl
      · intro f hf
        rcases List.mem_cons.mp hf with rfl | hf'
        · exact List.mem_cons_self _ _
        · exact List.mem_cons_of_mem _ (hsub f hf')

/-- If every new name is already seen, the merge loop is the identity. -/
theorem mergeNestedAux_of_all_seen (nfs : List NoSqlField) :
    ∀ (seen : List String) (acc : List NoSqlField),
      (∀ nf ∈ nfs, nf.name ∈ seen) → mergeNestedAux seen acc nfs = acc := by
  induction nfs with
  | nil => intro seen acc _; rfl
  | cons nf rest ih =>
    intro seen acc h
    rw [mergeNestedAux, if_pos (h nf (List.mem_cons_self _ _))]
    exact ih seen acc (fun g hg => h g (List.mem_cons_of_mem _ hg))

/-- After the merge loop, every new field's name is present (provided the
seen set starts as a subset of the accumulated names). -/
theorem mergeNestedAux_covers (nfs : List NoSqlField) :
    ∀ (seen : List String) (acc : List NoSqlField),
      (∀ x ∈ seen, x ∈ acc.map NoSqlField.name) →
      ∀ nf ∈ nfs, nf.name ∈ (mergeNestedAux seen acc nfs).map NoSqlField.name := by
  induction nfs with
  | nil => intro seen acc _ nf hnf; cases hnf
  | cons nf rest ih =>
    intro seen acc hsub g hg
    by_cases hn : nf.name ∈ seen
    · rw [mergeNestedAux, if_pos hn]
      rcases List.mem_cons.mp hg with rfl | hg'
      · obtain ⟨added, he, _⟩ := mergeNestedAux_append rest seen acc
        rw [he, List.map_append]
        exact List.mem_append_left _ (hsub g.name hn)
      · exact ih seen acc hsub g hg'
    · rw [mergeNestedAux, if_neg hn]
      have hsub' : ∀ x ∈ nf.name :: seen, x ∈ (acc ++ [nf]).map NoSqlField.name := by
        intro x hx
        rw [List.map_append]
        rcases List.mem_cons.mp hx with rfl | hx'
        · exact List.mem_append_right _ (by simp)
        · exact List.mem_append_left _ (hsub x hx')
      rcases List.mem_cons.mp hg with rfl | hg'
      · obtain ⟨added, he, _⟩ := mergeNestedAux_append rest (g.name :: seen) (acc ++ [g])
        rw [he, List.map_append]
        refine List.mem_append_left _ ?_
        rw [List.map_append]
        exact List.mem_append_right _ (by simp)
      · exact ih _ _ hsub' g hg'

/-- The merge loop preserves distinctness of names. -/
theorem mergeNestedAux_nodup (nfs : List NoSqlField) :
    ∀ (seen : List String) (acc : List NoSqlField),
      (acc.map NoSqlField.name).Nodup →
      (∀ x ∈ acc.map NoSqlField.name, x ∈ seen) →
      ((mergeNestedAux seen acc nfs).map NoSqlField.name).Nodup := by
  induction nfs with
  | nil => intro seen acc h _; exact h
  | cons nf rest ih =>
    intro seen acc hnodup hsub
    by_cases hn : nf.name ∈ seen
    · rw [mergeNestedAux, if_pos hn]
      exact ih seen acc hnodup hsub
    · rw [mergeNestedAux, if_neg hn]
      refine ih (nf.name :: seen) (acc ++ [nf]) ?_ ?_
      · rw [List.map_append]
        rw [List.nodup_append]
        refine ⟨hnodup, by simp, ?_⟩
        intro x hx hx'
        have : x = nf.name := by simpa using hx'
        exact hn (this ▸ hsub x hx)
      · intro x hx
        rw [List.map_append] at hx
        rcases List.mem_append.mp hx with hx' | hx'
        · exact List.mem_cons_of_mem _ (hsub x hx')
        · exact List.mem_cons.mpr (Or.inl (by simpa using hx'))

/-- The merge loop preserves elementwise duplicate-freedom. -/
theorem mergeNestedAux_dupfree (nfs : List NoSqlField) (seen : List String)
    (acc : List NoSqlField)
    (h1 : ∀ f ∈ acc, fieldDupFree f = true)
    (h2 : ∀ f ∈ nfs, fieldDupFree f = true) :
    ∀ f ∈ mergeNestedAux seen acc nfs, fieldDupFree f = true := by
  obtain ⟨added, he, hsub⟩ := mergeNestedAux_append nfs seen acc
  rw [he]
  intro f hf
  rcases List.mem_append.mp hf with hf' | hf'
  · exact h1 f hf'
  · exact h2 f (hsub f hf')

/-- Appending behind a failed `find?` only exposes the new element. -/
theorem find?_append_singleton (l : List NoSqlField) (p : NoSqlField → Bool)
    (x : NoSqlField) (hnone : l.find? p = none) :
    (l ++ [x]).find? p = [x].find? p := by
  rw [List.find?_append, hnone]
  rfl

/-- Replacing the first field named `n` with another field named `n` is what
a subsequent `find?` for `n` sees. -/
theorem replaceFirstField_find?_self (n : String) (f' : NoSqlField)
    (hname : f'.name = n) :
    ∀ (l : List NoSqlField) (e : NoSqlField),
      l.find? (fun f => f.name == n) = some e →
      (replaceFirstField n f' l).find? (fun f => f.name == n) = some f' := by
  intro l
  induction l with
  | nil => intro e he; cases he
  | cons f rest ih =>
    intro e he
    by_cases hf : (f.name == n) = true
    · rw [replaceFirstField, if_pos hf]
      have hpos : (f'.name == n) = true := by simp [hname]
      rw [@List.find?_cons_of_pos _ (fun f => f.name == n) f' rest hpos]
    · rw [replaceFirstField, if_neg hf]
      rw [@List.find?_cons_of_neg _ (fun f => f.name == n) f rest hf] at he
      rw [@List.find?_cons_of_neg _ (fun f => f.name == n) f (replaceFirstField n f' rest) hf]
      exact ih e he

/-- Replacing the first field named `n` is invisible to a `find?` for a
different name. -/
theorem replaceFirstField_find?_other (n n' : String) (f' : NoSqlField)
    (hname : f'.name = n) (hne : n' ≠ n) :
    ∀ l : List NoSqlField,
      (replaceFirstField n f' l).find? (fun f => f.name == n') =
        l.find? (fun f => f.name == n') := by
  intro l
  induction l with
  | nil => rfl
  | cons f rest ih =>
    by_cases hf : (f.name == n) = true
    · rw [replaceFirstField, if_pos hf]
      have hfn : f.name = n := by simpa using hf
      have h1 : ¬ ((f'.name == n') = true) := by
        simp only [beq_iff_eq, hname]
        exact fun hc => hne hc.symm
      have h2 : ¬ ((f.name == n') = true) := by
        simp only [beq_iff_eq, hfn]
        exact fun hc => hne hc.symm
      rw [@List.find?_cons_of_neg _ (fun f => f.name == n') f' rest h1,
        @List.find?_cons_of_neg _ (fun f => f.name == n') f rest h2]
    · rw [replaceFirstField, if_neg hf]
      by_cases hf' : (f.name == n') = true
      · rw [@List.find?_cons_of_pos _ (fun f => f.name == n') f (replaceFirstField n f' rest) hf',
          @List.find?_cons_of_pos _ (fun f => f.name == n') f rest hf']
      · rw [@List.find?_cons_of_neg _ (fun f => f.name == n') f (replaceFirstField n f' rest) hf',
          @List.find?_cons_of_neg _ (fun f => f.name == n') f rest hf']
        exact ih

/-- Replacing the found field by itself is the identity. -/
theorem replaceFirstField_self (n : String) :
    ∀ (l : List NoSqlField) (e : NoSqlField),
      l.find? (fun f => f.name == n) = some e →
      replaceFirstField n e l = l := by
  intro l
  induction l with
  | nil => intro e he; cases he
  | cons f rest ih =>
    intro e he
    by_cases hf : (f.name == n) = true
    · rw [@List.find?_cons_of_pos _ (fun f => f.name == n) f rest hf] at he
      cases he
      rw [replaceFirstField, if_pos hf]
    · rw [@List.find?_cons_of_neg _ (fun f => f.name == n) f rest hf] at he
      rw [replaceFirstField, if_neg hf, ih e he]

/-- Members after a first-field replacement. -/
theorem replaceFirstField_mem (n : String) (f' : NoSqlField) :
    ∀ (l : List NoSqlField) (f : NoSqlField),
      f ∈ replaceFirstField n f' l → f ∈ l ∨ f = f' := by
  intro l
  induction l with
  | nil => intro f hf; cases hf
  | cons g rest ih =>
    intro f hf
    by_cases hg : (g.name == n) = true
    · rw [replaceFirstField, if_pos hg] at hf
      rcases List.mem_cons.mp hf with rfl | hf'
      · exact Or.inr rfl
      · exact Or.inl (List.mem_cons_of_mem _ hf')
    · rw [replaceFirstField, if_neg hg] at hf
      rcases List.mem_cons.mp hf with rfl | hf'
      · exact Or.inl (List.mem_cons_self _ _)
      · rcases ih f hf' with h | h
        · exact Or.inl (List.mem_cons_of_mem _ h)
        · exact Or.inr h

/-- A successful JS map lookup means the pair itself (key included) is
stored. -/
theorem jsMapGet_mem_pair {α : Type} (m : List (String × α)) (k : String) (v : α)
    (h : jsMapGet m k = some v) : (k, v) ∈ m := by
  unfold jsMapGet at h
  cases hf : m.find? (fun p => p.1 == k) with
  | none => rw [hf] at h; cases h
  | some q =>
    rw [hf] at h
    have hq := List.mem_of_find?_eq_some hf
    have hqk : q.1 = k := by
      have := List.find?_some hf
      simpa using this
    have hqv : q.2 = v := by simpa using h
    have hqe : q = (k, v) := Prod.ext_iff.mpr ⟨hqk, hqv⟩
    exact hqe ▸ hq

/-- A successful lookup witnesses the key in the `any` scan. -/
theorem jsMapGet_any {α : Type} (m : List (String × α)) (k : String) (v : α)
    (h : jsMapGet m k = some v) : m.any (fun p => p.1 == k) = true :=
  List.any_eq_true.mpr ⟨(k, v), jsMapGet_mem_pair m k v h, by simp⟩

/-- The keys of a JS map after `set`. -/
theorem jsMapSet_keys {α : Type} (m : List (String × α)) (k : String) (v : α) :
    (jsMapSet m k v).map Prod.fst =
      if m.any (fun p => p.1 == k) then m.map Prod.fst
      else m.map Prod.fst ++ [k] := by
  unfold jsMapSet
  by_cases h : m.any (fun p => p.1 == k)
  · rw [if_pos h, if_pos h, List.map_map]
    refine List.map_congr_left ?_
    intro p _
    by_cases hp : (p.1 == k) = true
    · have : p.1 = k := by simpa using hp
      simp [hp, this]
    · have : p.1 ≠ k := by simpa using hp
      simp [hp, this]
  · rw [if_neg h, if_neg h, List.map_append]
    rfl

/-- `jsMapSet` preserves the working-map well-formedness when the value is
stored under its own name. -/
theorem jsMapSet_wf (m : List (String × NoSqlCollection)) (k : String)
    (v : NoSqlCollection) (hwf : collMapWF m) (hvk : v.name = k) :
    collMapWF (jsMapSet m k v) := by
  constructor
  · rw [jsMapSet_keys]
    by_cases h : m.any (fun p => p.1 == k)
    · rw [if_pos h]; exact hwf.1
    · rw [if_neg h]
      rw [List.nodup_append]
      refine ⟨hwf.1, by simp, ?_⟩
      intro x hx hx'
      have hxk : x = k := by simpa using hx'
      subst hxk
      obtain ⟨p, hp, hpk⟩ := List.mem_map.mp hx
      have := List.any_eq_false.mp (Bool.eq_false_iff.mpr h) p hp
      simp [hpk] at this
  · intro p hp
    rcases mem_jsMapSet m k v p hp with hold | hnew
    · exact hwf.2 p hold
    · rw [hnew]; exact hvk

/-- The initial working map is well-formed. -/
theorem initCollectionsMap_wf_go :
    ∀ (cs : List NoSqlCollection) (m : List (String × NoSqlCollection)),
      collMapWF m →
      collMapWF (cs.foldl (fun m c => jsMapSet m c.name c) m) := by
  intro cs
  induction cs with
  | nil => intro m h; exact h
  | cons c cs ih =>
    intro m h
    exact ih _ (jsMapSet_wf m c.name c h rfl)

/-- The initial working map of any baseline is well-formed. -/
theorem initCollectionsMap_wf (s : NoSqlSchema) :
    collMapWF (initCollectionsMap s) :=
  initCollectionsMap_wf_go s.collections []
    ⟨List.nodup_nil, fun p hp => absurd hp (List.not_mem_nil p)⟩

/-- `applyRec` either leaves the map alone or overwrites the target
collection with a fields-modified version of its current value. -/
theorem applyRec_cases (sqlSchema : SqlSchema)
    (m : List (String × NoSqlCollection)) (r : EmbeddingRecommendation) :
    applyRec sqlSchema m r = m ∨
    ∃ c fields', jsMapGet m r.collection = some c ∧
      applyRec sqlSchema m r =
        jsMapSet m r.collection { c with fields := fields' } := by
  cases hget : jsMapGet m r.collection with
  | none => left; simp only [applyRec, hget]
  | some c =>
    cases hfind : c.fields.find? (fun f => f.name == nestedNameOf r) with
    | some existing =>
      cases hnf : nestedFieldsOpt sqlSchema r with
      | some nfs =>
        by_cases hcond : (existing.type == "object" && decide (nfs.length > 0)) = true
        · right
          refine ⟨c, replaceFirstField (nestedNameOf r)
              (existing.withFields (some (mergeNestedAux
                ((existing.fields.getD []).map (·.name))
                (existing.fields.getD []) nfs))) c.fields, rfl, ?_⟩
          simp only [applyRec, hget, hfind, hnf, if_pos hcond]
        · left
          simp only [applyRec, hget, hfind, hnf, if_neg hcond]
      | none =>
        left
        simp only [applyRec, hget, hfind, hnf]
    | none =>
      right
      refine ⟨c, c.fields ++ [pushedField sqlSchema r], rfl, ?_⟩
      simp only [applyRec, hget, hfind]

/-- `applyRec` preserves well-formedness. -/
theorem applyRec_wf (sqlSchema : SqlSchema)
    (m : List (String × NoSqlCollection)) (r : EmbeddingRecommendation)
    (hwf : collMapWF m) : collMapWF (applyRec sqlSchema m r) := by
  rcases applyRec_cases sqlSchema m r with heq | ⟨c, fields', hget, heq⟩
  · rw [heq]; exact hwf
  · rw [heq]
    refine jsMapSet_wf m r.collection _ hwf ?_
    exact hwf.2 (r.collection, c) (jsMapGet_mem_pair m _ _ hget)

/-- `applyRec` does not change the value stored under another key. -/
theorem applyRec_get_other (sqlSchema : SqlSchema)
    (m : List (String × NoSqlCollection)) (r : EmbeddingRecommendation)
    (k : String) (hk : k ≠ r.collection) :
    jsMapGet (applyRec sqlSchema m r) k = jsMapGet m k := by
  rcases applyRec_cases sqlSchema m r with heq | ⟨c, fields', hget, heq⟩
  · rw [heq]
  · rw [heq]
    exact jsMapGet_set_other m r.collection k _ hk

/-- Rewriting every non-matching entry is the identity. -/
theorem map_subst_id {α : Type} (m : List (String × α)) (k : String) (v : α)
    (h : ∀ p ∈ m, (p.1 == k) = false) :
    m.map (fun p => if p.1 == k then (k, v) else p) = m := by
  induction m with
  | nil => rfl
  | cons p rest ih =>
    rw [List.map_cons, if_neg (by simp [h p (List.mem_cons_self p rest)]),
      ih (fun q hq => h q (List.mem_cons_of_mem _ hq))]

/-- Re-storing the retrieved value is the identity on a well-keyed map. -/
theorem jsMapSet_id {α : Type} (m : List (String × α)) (k : String) (v : α)
    (hnodup : (m.map Prod.fst).Nodup) (hget : jsMapGet m k = some v) :
    jsMapSet m k v = m := by
  induction m with
  | nil => simp [jsMapGet, List.find?] at hget
  | cons p rest ih =>
    rw [List.map_cons, List.nodup_cons] at hnodup
    by_cases hp : (p.1 == k) = true
    · have hpk : p.1 = k := by simpa using hp
      have hpv : p.2 = v := by
        unfold jsMapGet at hget
        rw [@List.find?_cons_of_pos _ (fun p => p.1 == k) p rest hp] at hget
        simpa using hget
      have hrest : ∀ q ∈ rest, (q.1 == k) = false := by
        intro q hq
        simp only [beq_eq_false_iff_ne]
        intro hqk
        exact hnodup.1 (List.mem_map.mpr ⟨q, hq, by rw [hqk, ← hpk]⟩)
      unfold jsMapSet
      rw [if_pos (by simp [List.any_cons, hp]), List.map_cons, if_pos hp,
        map_subst_id rest k v hrest]
      have hpe : ((k, v) : String × α) = p := Prod.ext_iff.mpr ⟨hpk.symm, hpv.symm⟩
      rw [hpe]
    · have hget' : jsMapGet rest k = some v := by
        unfold jsMapGet at hget ⊢
        rw [@List.find?_cons_of_neg _ (fun p => p.1 == k) p rest hp] at hget
        exact hget
      have hanyrest : rest.any (fun p => p.1 == k) = true :=
        jsMapGet_any rest k v hget'
      have hih := ih hnodup.2 hget'
      unfold jsMapSet at hih ⊢
      rw [if_pos hanyrest] at hih
      rw [if_pos (by simp [List.any_cons, hanyrest]), List.map_cons, if_neg hp, hih]

/-- Unpacking a present nested-field computation. -/
theorem nestedFieldsOpt_some (sqlSchema : SqlSchema)
    (r : EmbeddingRecommendation) (nfs : List NoSqlField)
    (h : nestedFieldsOpt sqlSchema r = some nfs) :
    ∃ t, resolveReferencedTable sqlSchema r = some t ∧
      nfs = nestedFieldsFor r t := by
  unfold nestedFieldsOpt at h
  cases hrt : resolveReferencedTable sqlSchema r with
  | none => rw [hrt] at h; cases h
  | some t =>
    rw [hrt] at h
    exact ⟨t, rfl, (Option.some.inj h).symm⟩

/-- Applying a recommendation settles it. -/
theorem applyRec_settles (sqlSchema : SqlSchema)
    (m : List (String × NoSqlCollection)) (r : EmbeddingRecommendation) :
    recSettled sqlSchema (applyRec sqlSchema m r) r := by
  cases hget : jsMapGet m r.collection with
  | none =>
    intro c' hc'
    simp only [applyRec, hget] at hc'
    cases hc'
  | some c =>
    cases hfind : c.fields.find? (fun f => f.name == nestedNameOf r) with
    | none =>
      intro c' hc'
      simp only [applyRec, hget, hfind] at hc'
      rw [jsMapGet_set_self] at hc'
      cases hc'
      refine ⟨pushedField sqlSchema r, ?_, ?_⟩
      · show (c.fields ++ [pushedField sqlSchema r]).find?
          (fun f => f.name == nestedNameOf r) = some (pushedField sqlSchema r)
        rw [find?_append_singleton _ _ _ hfind]
        have hpos : ((pushedField sqlSchema r).name == nestedNameOf r) = true := by
          unfold pushedField
          simp [NoSqlField.name]
        rw [@List.find?_cons_of_pos _ (fun f => f.name == nestedNameOf r)
          (pushedField sqlSchema r) [] hpos]
      · cases hnf : nestedFieldsOpt sqlSchema r with
        | none => exact Or.inl rfl
        | some nfs =>
          cases nfs with
          | nil => exact Or.inr (Or.inl rfl)
          | cons nf rest =>
            refine Or.inr (Or.inr (Or.inr ⟨nf :: rest, nf :: rest, rfl, ?_, ?_⟩))
            · unfold pushedField
              rw [hnf]
              simp [NoSqlField.fields]
            · intro g hg
              exact List.mem_map_of_mem _ hg
    | some existing =>
      cases hnf : nestedFieldsOpt sqlSchema r with
      | none =>
        intro c' hc'
        simp only [applyRec, hget, hfind, hnf] at hc'
        cases hc'
        exact ⟨existing, hfind, Or.inl hnf⟩
      | some nfs =>
        by_cases hcond : (existing.type == "object" && decide (nfs.length > 0)) = true
        · intro c' hc'
          simp only [applyRec, hget, hfind, hnf, if_pos hcond] at hc'
          rw [jsMapGet_set_self] at hc'
          cases hc'
          have hename : existing.name = nestedNameOf r := by
            have := List.find?_some hfind
            simpa using this
          have hname' : (existing.withFields (some (mergeNestedAux
              ((existing.fields.getD []).map (·.name))
              (existing.fields.getD []) nfs))).name = nestedNameOf r := by
            rw [withFields_name, hename]
          refine ⟨_, replaceFirstField_find?_self (nestedNameOf r) _ hname' c.fields
            existing hfind, ?_⟩
          refine Or.inr (Or.inr (Or.inr ⟨nfs, _, hnf, withFields_fields _ _, ?_⟩))
          intro nf hnf'
          exact mergeNestedAux_covers nfs _ _ (fun x hx => hx) nf hnf'
        · intro c' hc'
          simp only [applyRec, hget, hfind, hnf, if_neg hcond] at hc'
          cases hc'
          refine ⟨existing, hfind, ?_⟩
          rw [Bool.and_eq_true] at hcond
          push_neg at hcond
          by_cases hty : (existing.type == "object") = true
          · have hlen0 := hcond hty
            have hlen : nfs.length = 0 := by
              by_contra hne
              exact hlen0 (by simpa using Nat.pos_of_ne_zero hne)
            have hnil : nfs = [] := List.length_eq_zero.mp hlen
            exact Or.inr (Or.inl (hnil ▸ hnf))
          · exact Or.inr (Or.inr (Or.inl (by simpa using hty)))

/-- Applying one recommendation keeps every already-settled recommendation
settled. -/
theorem applyRec_preserves_settled (sqlSchema : SqlSchema)
    (m : List (String × NoSqlCollection)) (r r' : EmbeddingRecommendation)
    (hs : recSettled sqlSchema m r') :
    recSettled sqlSchema (applyRec sqlSchema m r) r' := by
  by_cases hcol : r'.collection = r.collection
  case neg =>
    intro c hc
    rw [applyRec_get_other sqlSchema m r r'.collection hcol] at hc
    exact hs c hc
  case pos =>
    cases hget : jsMapGet m r.collection with
    | none =>
      have happ : applyRec sqlSchema m r = m := by
        simp only [applyRec, hget]
      rw [happ]
      exact hs
    | some c =>
      have hgetc : jsMapGet m r'.collection = some c := by rw [hcol, hget]
      obtain ⟨e, hfinde, hD⟩ := hs c hgetc
      cases hfind : c.fields.find? (fun f => f.name == nestedNameOf r) with
      | none =>
        -- push branch of `r`
        intro c' hc'
        simp only [applyRec, hget, hfind] at hc'
        rw [hcol, jsMapGet_set_self] at hc'
        cases hc'
        refine ⟨e, ?_, hD⟩
        show (c.fields ++ [pushedField sqlSchema r]).find?
          (fun f => f.name == nestedNameOf r') = some e
        rw [List.find?_append, hfinde]
        rfl
      | some existing =>
        cases hnf : nestedFieldsOpt sqlSchema r with
        | none =>
          have happ : applyRec sqlSchema m r = m := by
            simp only [applyRec, hget, hfind, hnf]
          rw [happ]
          exact hs
        | some nfs =>
          by_cases hcond : (existing.type == "object" && decide (nfs.length > 0)) = true
          · intro c' hc'
            simp only [applyRec, hget, hfind, hnf, if_pos hcond] at hc'
            rw [hcol, jsMapGet_set_self] at hc'
            cases hc'
            have hename : existing.name = nestedNameOf r := by
              have := List.find?_some hfind
              simpa using this
            have hname' : (existing.withFields (some (mergeNestedAux
                ((existing.fields.getD []).map (·.name))
                (existing.fields.getD []) nfs))).name = nestedNameOf r := by
              rw [withFields_name, hename]
            by_cases hnn : nestedNameOf r' = nestedNameOf r
            · -- same nested name: the replaced field is the settled one
              have hfinde' : c.fields.find? (fun f => f.name == nestedNameOf r) = some e := by
                rw [← hnn]; exact hfinde
              have hee : e = existing := by
                rw [hfinde'] at hfind
                exact Option.some.inj hfind
              subst hee
              refine ⟨e.withFields (some (mergeNestedAux
                  (List.map (fun x => x.name) (e.fields.getD []))
                  (e.fields.getD []) nfs)), ?_, ?_⟩
              · show (replaceFirstField (nestedNameOf r) _ c.fields).find?
                  (fun f => f.name == nestedNameOf r') = some _
                rw [hnn]
                exact replaceFirstField_find?_self (nestedNameOf r) _ hname' c.fields e hfind
              · rcases hD with hD | hD | hD | ⟨nfs', l, hnf', hfl, hcov⟩
                · exact Or.inl hD
                · exact Or.inr (Or.inl hD)
                · exact Or.inr (Or.inr (Or.inl (by rw [withFields_type]; exact hD)))
                · refine Or.inr (Or.inr (Or.inr ⟨nfs', _, hnf', withFields_fields _ _, ?_⟩))
                  intro nf hnfm
                  have hef : e.fields.getD [] = l := by rw [hfl]; rfl
                  rw [hef]
                  obtain ⟨added, hadd, _⟩ :=
                    mergeNestedAux_append nfs (l.map (fun x => x.name)) l
                  rw [hadd, List.map_append]
                  exact List.mem_append_left _ (hcov nf hnfm)
            · -- different nested name: the replacement is invisible
              refine ⟨e, ?_, hD⟩
              show (replaceFirstField (nestedNameOf r) _ c.fields).find?
                (fun f => f.name == nestedNameOf r') = some e
              rw [replaceFirstField_find?_other (nestedNameOf r) (nestedNameOf r') _
                hname' hnn c.fields]
              exact hfinde
          · have happ : applyRec sqlSchema m r = m := by
              simp only [applyRec, hget, hfind, hnf, if_neg hcond]
            rw [happ]
            exact hs

/-- A settled recommendation's application is a no-op. -/
theorem applyRec_noop (sqlSchema : SqlSchema)
    (m : List (String × NoSqlCollection)) (r : EmbeddingRecommendation)
    (hwf : collMapWF m) (hs : recSettled sqlSchema m r) :
    applyRec sqlSchema m r = m := by
  cases hget : jsMapGet m r.collection with
  | none => simp only [applyRec, hget]
  | some c =>
    obtain ⟨e, hfinde, hD⟩ := hs c hget
    rcases hD with hD | hD | hD | ⟨nfs, l, hnf, hfl, hcov⟩
    · simp only [applyRec, hget, hfinde, hD]
    · simp only [applyRec, hget, hfinde, hD]
      simp
    · simp only [applyRec, hget, hfinde]
      cases hnf : nestedFieldsOpt sqlSchema r with
      | none => rfl
      | some nfs =>
        have hty : (e.type == "object") = false := by
          simp only [beq_eq_false_iff_ne]
          exact hD
        simp [hty]
    · simp only [applyRec, hget, hfinde, hnf]
      by_cases hcond : (e.type == "object" && decide (nfs.length > 0)) = true
      · rw [if_pos hcond]
        have hef : e.fields.getD [] = l := by rw [hfl]; rfl
        rw [hef]
        rw [mergeNestedAux_of_all_seen nfs (List.map (fun x => x.name) l) l
          (fun nf hnf' => hcov nf hnf')]
        rw [withFields_eq_self e l hfl]
        rw [replaceFirstField_self (nestedNameOf r) c.fields e hfinde]
        exact jsMapSet_id m r.collection c hwf.1 hget
      · rw [if_neg hcond]

/-- Settledness survives a whole recommendation fold. -/
theorem foldl_preserves_settled (sqlSchema : SqlSchema) :
    ∀ (recs : List EmbeddingRecommendation)
      (m : List (String × NoSqlCollection)) (r' : EmbeddingRecommendation),
      recSettled sqlSchema m r' →
      recSettled sqlSchema (recs.foldl (applyRec sqlSchema) m) r' := by
  intro recs
  induction recs with
  | nil => intro m r' hs; exact hs
  | cons r rest ih =>
    intro m r' hs
    exact ih _ r' (applyRec_preserves_settled sqlSchema m r r' hs)

/-- The fold's well-formedness. -/
theorem foldl_applyRec_wf (sqlSchema : SqlSchema) :
    ∀ (recs : List EmbeddingRecommendation)
      (m : List (String × NoSqlCollection)),
      collMapWF m → collMapWF (recs.foldl (applyRec sqlSchema) m) := by
  intro recs
  induction recs with
  | nil => intro m h; exact h
  | cons r rest ih =>
    intro m h
    exact ih _ (applyRec_wf sqlSchema m r h)

/-- After the fold, every processed recommendation is settled. -/
theorem foldl_applyRec_settled (sqlSchema : SqlSchema) :
    ∀ (recs : List EmbeddingRecommendation)
      (m : List (String × NoSqlCollection)),
      ∀ r ∈ recs, recSettled sqlSchema (recs.foldl (applyRec sqlSchema) m) r := by
  intro recs
  induction recs with
  | nil => intro m r hr; cases hr
  | cons r0 rest ih =>
    intro m r hr
    rw [List.foldl_cons]
    rcases List.mem_cons.mp hr with rfl | hr'
    · exact foldl_preserves_settled sqlSchema rest _ r
        (applyRec_settles sqlSchema m r)
    · exact ih _ r hr'

/-- A fold over settled recommendations is the identity. -/
theorem foldl_applyRec_noop (sqlSchema : SqlSchema) :
    ∀ (recs : List EmbeddingRecommendation)
      (m : List (String × NoSqlCollection)),
      collMapWF m → (∀ r ∈ recs, recSettled sqlSchema m r) →
      recs.foldl (applyRec sqlSchema) m = m := by
  intro recs
  induction recs with
  | nil => intro m _ _; rfl
  | cons r rest ih =>
    intro m hwf hall
    rw [List.foldl_cons,
      applyRec_noop sqlSchema m r hwf (hall r (List.mem_cons_self _ _))]
    exact ih m hwf (fun r' hr' => hall r' (List.mem_cons_of_mem _ hr'))

/-- `jsMapSet` with a fresh key appends. -/
theorem jsMapSet_fresh {α : Type} (m : List (String × α)) (k : String) (v : α)
    (h : k ∉ m.map Prod.fst) : jsMapSet m k v = m ++ [(k, v)] := by
  unfold jsMapSet
  rw [if_neg]
  intro hany
  obtain ⟨p, hp, hpk⟩ := List.any_eq_true.mp hany
  exact h (List.mem_map.mpr ⟨p, hp, by simpa using hpk⟩)

/-- Rebuilding the working map from its own values gives the map back. -/
theorem initCollectionsMap_roundtrip_go :
    ∀ (m acc : List (String × NoSqlCollection)),
      (m.map Prod.fst).Nodup →
      (∀ p ∈ m, (p.2 : NoSqlCollection).name = p.1) →
      (∀ p ∈ m, p.1 ∉ acc.map Prod.fst) →
      (m.map Prod.snd).foldl (fun acc c => jsMapSet acc c.name c) acc =
        acc ++ m := by
  intro m
  induction m with
  | nil => intro acc _ _ _; simp
  | cons p rest ih =>
    intro acc hnodup hnames hfresh
    rw [List.map_cons, List.foldl_cons]
    rw [hnames p (List.mem_cons_self _ _)]
    rw [jsMapSet_fresh acc p.1 p.2 (hfresh p (List.mem_cons_self _ _))]
    rw [List.map_cons, List.nodup_cons] at hnodup
    have hih := ih (acc ++ [(p.1, p.2)]) hnodup.2
      (fun q hq => hnames q (List.mem_cons_of_mem _ hq)) ?_
    · rw [hih, List.append_assoc]
      simp
    · intro q hq
      rw [List.map_append]
      intro hmem
      rcases List.mem_append.mp hmem with hm | hm
      · exact hfresh q (List.mem_cons_of_mem _ hq) hm
      · have : q.1 = p.1 := by simpa using hm
        exact hnodup.1 (this ▸ List.mem_map.mpr ⟨q, hq, rfl⟩)

/-- Rebuilding the initial map of a schema made from a well-formed map's
values yields that map. -/
theorem initCollectionsMap_roundtrip (m : List (String × NoSqlCollection))
    (hwf : collMapWF m) :
    initCollectionsMap ⟨m.map (·.2)⟩ = m := by
  unfold initCollectionsMap
  exact initCollectionsMap_roundtrip_go m [] hwf.1 hwf.2
    (fun p _ hmem => absurd hmem (List.not_mem_nil _))

/-- A field's stored nested list inherits its duplicate-freedom. -/
theorem fieldDupFree_getD (e : NoSqlField) (hedf : fieldDupFree e = true) :
    nodupNames (e.fields.getD []) = true ∧
    fieldsDupFree (e.fields.getD []) = true := by
  cases e with
  | mk n t o d rc fs =>
    cases fs with
    | none => exact ⟨rfl, rfl⟩
    | some l =>
      have h : (nodupNames l && fieldsDupFree l) = true := hedf
      rw [Bool.and_eq_true] at h
      exact ⟨h.1, h.2⟩

/-- The pushed object field is duplicate-free. -/
theorem pushedField_dupfree (sqlSchema : SqlSchema) (r : EmbeddingRecommendation) :
    fieldDupFree (pushedField sqlSchema r) = true := by
  unfold pushedField
  cases hnf : nestedFieldsOpt sqlSchema r with
  | none => rfl
  | some nfs =>
    obtain ⟨t, hrt, hnfs⟩ := nestedFieldsOpt_some sqlSchema r nfs hnf
    by_cases hlen : nfs.length > 0
    · show fieldDupFree (NoSqlField.mk (nestedNameOf r) "object" true none none
        (if nfs.length > 0 then some nfs else none)) = true
      rw [if_pos hlen]
      show (nodupNames nfs && fieldsDupFree nfs) = true
      rw [Bool.and_eq_true]
      subst hnfs
      refine ⟨nestedFieldsFor_nodup r t, ?_⟩
      rw [fieldsDupFree_iff]
      intro f hf
      exact (nestedFieldsFor_elem r t f hf).2
    · show fieldDupFree (NoSqlField.mk (nestedNameOf r) "object" true none none
        (if nfs.length > 0 then some nfs else none)) = true
      rw [if_neg hlen]
      rfl

/-- The merged object field is duplicate-free. -/
theorem merged_fieldDupFree (e : NoSqlField) (nfs : List NoSqlField)
    (hedf : fieldDupFree e = true)
    (hnfsd : ∀ f ∈ nfs, fieldDupFree f = true) :
    fieldDupFree (e.withFields (some (mergeNestedAux
      (List.map (fun x => x.name) (e.fields.getD []))
      (e.fields.getD []) nfs))) = true := by
  obtain ⟨hnodup, hdf⟩ := fieldDupFree_getD e hedf
  cases e with
  | mk n t o d rc fs =>
    show (nodupNames _ && fieldsDupFree _) = true
    rw [Bool.and_eq_true]
    constructor
    · rw [nodupNames_iff]
      refine mergeNestedAux_nodup nfs _ _ ?_ ?_
      · exact (nodupNames_iff _).mp hnodup
      · intro x hx; exact hx
    · rw [fieldsDupFree_iff]
      exact mergeNestedAux_dupfree nfs _ _ ((fieldsDupFree_iff _).mp hdf) hnfsd

/-- `applyRec` preserves duplicate-freedom of every stored collection. -/
theorem applyRec_preserves_dupfree (sqlSchema : SqlSchema)
    (m : List (String × NoSqlCollection)) (r : EmbeddingRecommendation)
    (hdf : ∀ p ∈ m, fieldsDupFree (p.2 : NoSqlCollection).fields = true) :
    ∀ p ∈ applyRec sqlSchema m r,
      fieldsDupFree (p.2 : NoSqlCollection).fields = true := by
  cases hget : jsMapGet m r.collection with
  | none => simp only [applyRec, hget]; exact hdf
  | some c =>
    have hcmem := jsMapGet_mem_pair m r.collection c hget
    have hcdf : fieldsDupFree c.fields = true := hdf _ hcmem
    cases hfind : c.fields.find? (fun f => f.name == nestedNameOf r) with
    | none =>
      simp only [applyRec, hget, hfind]
      intro p hp
      rcases mem_jsMapSet _ _ _ p hp with hold | hnew
      · exact hdf p hold
      · rw [hnew]
        show fieldsDupFree (c.fields ++ [pushedField sqlSchema r]) = true
        rw [fieldsDupFree_iff]
        intro f hf
        rcases List.mem_append.mp hf with hf' | hf'
        · exact (fieldsDupFree_iff c.fields).mp hcdf f hf'
        · have hfe : f = pushedField sqlSchema r := by simpa using hf'
          rw [hfe]
          exact pushedField_dupfree sqlSchema r
    | some existing =>
      have hemem : existing ∈ c.fields := List.mem_of_find?_eq_some hfind
      have hedf : fieldDupFree existing = true :=
        (fieldsDupFree_iff _).mp hcdf existing hemem
      cases hnf : nestedFieldsOpt sqlSchema r with
      | none => simp only [applyRec, hget, hfind, hnf]; exact hdf
      | some nfs =>
        obtain ⟨t, hrt, hnfs⟩ := nestedFieldsOpt_some sqlSchema r nfs hnf
        by_cases hcond : (existing.type == "object" && decide (nfs.length > 0)) = true
        · simp only [applyRec, hget, hfind, hnf, if_pos hcond]
          intro p hp
          rcases mem_jsMapSet _ _ _ p hp with hold | hnew
          · exact hdf p hold
          · rw [hnew]
            show fieldsDupFree (replaceFirstField (nestedNameOf r)
              (existing.withFields (some (mergeNestedAux
                (List.map (fun x => x.name) (existing.fields.getD []))
                (existing.fields.getD []) nfs))) c.fields) = true
            rw [fieldsDupFree_iff]
            intro f hf
            rcases replaceFirstField_mem _ _ c.fields f hf with hf' | hf'
            · exact (fieldsDupFree_iff c.fields).mp hcdf f hf'
            · rw [hf']
              refine merged_fieldDupFree existing nfs hedf ?_
              subst hnfs
              intro g hg
              exact (nestedFieldsFor_elem r t g hg).2
        · simp only [applyRec, hget, hfind, hnf, if_neg hcond]; exact hdf

/-- The recommendation fold preserves duplicate-freedom. -/
theorem foldl_applyRec_dupfree (sqlSchema : SqlSchema) :
    ∀ (recs : List EmbeddingRecommendation)
      (m : List (String × NoSqlCollection)),
      (∀ p ∈ m, fieldsDupFree (p.2 : NoSqlCollection).fields = true) →
      ∀ p ∈ recs.foldl (applyRec sqlSchema) m,
        fieldsDupFree (p.2 : NoSqlCollection).fields = true := by
  intro recs
  induction recs with
  | nil => intro m h; exact h
  | cons r rest ih =>
    intro m h
    exact ih _ (applyRec_preserves_dupfree sqlSchema m r h)

/-- The initial map's values are the baseline collections, so their
duplicate-freedom carries over. -/
theorem initCollectionsMap_dupfree (s : NoSqlSchema)
    (hdup : schemaNestedDupFree s = true) :
    ∀ p ∈ initCollectionsMap s,
      fieldsDupFree (p.2 : NoSqlCollection).fields = true := by
  have hall := List.all_eq_true.mp hdup
  unfold initCollectionsMap
  suffices hgo : ∀ (cs : List NoSqlCollection)
      (acc : List (String × NoSqlCollection)),
      (∀ p ∈ acc, fieldsDupFree (p.2 : NoSqlCollection).fields = true) →
      (∀ c ∈ cs, fieldsDupFree c.fields = true) →
      ∀ p ∈ cs.foldl (fun m c => jsMapSet m c.name c) acc,
        fieldsDupFree (p.2 : NoSqlCollection).fields = true by
    exact hgo s.collections [] (fun p hp => absurd hp (List.not_mem_nil _)) hall
  intro cs
  induction cs with
  | nil => intro acc h _ p hp; exact h p hp
  | cons c rest ih =>
    intro acc h hcs
    refine ih _ ?_ (fun c' hc' => hcs c' (List.mem_cons_of_mem _ hc'))
    intro p hp
    rcases mem_jsMapSet _ _ _ p hp with hold | hnew
    · exact h p hold
    · rw [hnew]
      exact hcs c (List.mem_cons_self _ _)

/-- C7: applying the Advisory Augmentation Merger twice with the same
recommendation list yields the same schema as applying it once — the second
application is a no-op on every already-merged field — and the merge never
introduces duplicate nested field names (a baseline free of nested duplicate
names stays free of them). -/
theorem c7_merger_idempotent (base : NoSqlSchema) (sqlSchema : SqlSchema)
    (llm : Option LLMRecommendations) :
    applyLLMRecommendationsToNoSqlSchema
        (applyLLMRecommendationsToNoSqlSchema base sqlSchema llm) sqlSchema llm =
      applyLLMRecommendationsToNoSqlSchema base sqlSchema llm ∧
    (schemaNestedDupFree base = true →
      schemaNestedDupFree
        (applyLLMRecommendationsToNoSqlSchema base sqlSchema llm) = true) := by
  cases llm with
  | none => exact ⟨rfl, fun h => h⟩
  | some l =>
    by_cases hlen : l.embeddings.length = 0
    · constructor
      · simp only [applyLLMRecommendationsToNoSqlSchema, if_pos hlen]
      · intro h
        simp only [applyLLMRecommendationsToNoSqlSchema, if_pos hlen]
        exact h
    · have hwfI := initCollectionsMap_wf base
      have hwfF := foldl_applyRec_wf sqlSchema l.embeddings _ hwfI
      have hsetF := foldl_applyRec_settled sqlSchema l.embeddings
        (initCollectionsMap base)
      have hfb : applyLLMRecommendationsToNoSqlSchema base sqlSchema (some l) =
          ⟨(l.embeddings.foldl (applyRec sqlSchema) (initCollectionsMap base)).map
            (·.2)⟩ := by
        simp only [applyLLMRecommendationsToNoSqlSchema, if_neg hlen]
      constructor
      · rw [hfb]
        simp only [applyLLMRecommendationsToNoSqlSchema, if_neg hlen]
        rw [initCollectionsMap_roundtrip _ hwfF,
          foldl_applyRec_noop sqlSchema l.embeddings _ hwfF hsetF]
      · intro hdup
        rw [hfb]
        have hinit := initCollectionsMap_dupfree base hdup
        have hfold := foldl_applyRec_dupfree sqlSchema l.embeddings _ hinit
        show List.all _ _ = true
        rw [List.all_eq_true]
        intro c hc
        obtain ⟨p, hp, hpc⟩ := List.mem_map.mp hc
        exact hpc ▸ hfold p hp

/-- C7 (witness): idempotence and duplicate-freedom at the concrete
implicit-`full` demonstration input. -/
theorem c7_merger_idempotent_witness :
    applyLLMRecommendationsToNoSqlSchema
        (applyLLMRecommendationsToNoSqlSchema demoBaseAlbum demoSqlArtist
          (some ⟨[recImplicitFull], [], none⟩)) demoSqlArtist
        (some ⟨[recImplicitFull], [], none⟩) =
      applyLLMRecommendationsToNoSqlSchema demoBaseAlbum demoSqlArtist
        (some ⟨[recImplicitFull], [], none⟩) ∧
    schemaNestedDupFree
      (applyLLMRecommendationsToNoSqlSchema demoBaseAlbum demoSqlArtist
        (some ⟨[recImplicitFull], [], none⟩)) = true :=
  ⟨(c7_merger_idempotent demoBaseAlbum demoSqlArtist
      (some ⟨[recImplicitFull], [], none⟩)).1,
   (c7_merger_idempotent demoBaseAlbum demoSqlArtist
      (some ⟨[recImplicitFull], [], none⟩)).2 (by rfl)⟩
